import Mathlib

/-!
Shallow embedding of the idle-party-hexagogo server core: hex coordinates and
grid (shared/hex), the unlock system (shared/systems/UnlockSystem.ts), the A*
pathfinder (map/HexPathfinder.ts), the server party and session state machine
(server/game), the connection registry (PlayerManager) and the JSON file store.
JavaScript `Map`s and `Set`s keyed by the canonical string of a cube coordinate
are modelled as insertion-ordered lists keyed by the coordinate itself (the
string key is a canonical, injective rendering of the coordinate triple, so
membership and lookup behave identically).
-/

namespace IdleHex

/-- Cube coordinate (q, r, s) as in HexUtils.ts; components are integers. -/
structure CubeCoord where
  q : Int
  r : Int
  s : Int
deriving DecidableEq

/-- Terrain kinds from HexTile.ts. -/
inductive TileType where
  | plains
  | forest
  | mountain
  | water
  | town
  | dungeon
  | voidTile
deriving DecidableEq

/-- The `traversable` field of TILE_CONFIGS in HexTile.ts. -/
def TileType.traversable : TileType → Bool
  | .plains => true
  | .forest => true
  | .mountain => false
  | .water => false
  | .town => true
  | .dungeon => true
  | .voidTile => false

/-- Immutable tile value (HexTile.ts): coordinate and terrain kind. Its string
`key` is the canonical rendering of `coord`, modelled by `coord` itself. -/
structure HexTile where
  coord : CubeCoord
  type : TileType
deriving DecidableEq

/-- Getter `isTraversable` of HexTile.ts. -/
def HexTile.isTraversable (t : HexTile) : Bool :=
  t.type.traversable

/-- CUBE_DIRECTIONS of HexUtils.ts (flat-top orientation). -/
def cubeDirections : List CubeCoord :=
  [⟨1, 0, -1⟩, ⟨1, -1, 0⟩, ⟨0, -1, 1⟩, ⟨-1, 0, 1⟩, ⟨-1, 1, 0⟩, ⟨0, 1, -1⟩]

/-- createCube of HexUtils.ts: forces q + r + s = 0. -/
def createCube (q r : Int) : CubeCoord :=
  ⟨q, r, -q - r⟩

/-- JavaScript `n & 1` on an integer (two's complement last bit). -/
def jsAnd1 (n : Int) : Int :=
  n % 2

/-- offsetToCube of HexUtils.ts (odd-q layout). `(col - (col & 1)) / 2` is an
exact division of an even integer, so JS Math.floor and Int division agree. -/
def offsetToCube (col row : Int) : CubeCoord :=
  createCube col (row - (col - jsAnd1 col) / 2)

/-- cubeToOffset of HexUtils.ts (odd-q layout). -/
def cubeToOffset (c : CubeCoord) : Int × Int :=
  (c.q, c.r + (c.q - jsAnd1 c.q) / 2)

/-- getNeighbors of HexUtils.ts: the six adjacent cube coordinates. -/
def getNeighbors (c : CubeCoord) : List CubeCoord :=
  cubeDirections.map (fun d => ⟨c.q + d.q, c.r + d.r, c.s + d.s⟩)

/-- cubeDistance of HexUtils.ts: max of component absolute differences. -/
def cubeDistance (a b : CubeCoord) : Nat :=
  max (a.q - b.q).natAbs (max (a.r - b.r).natAbs (a.s - b.s).natAbs)

/-- World grid (HexGrid.ts): a Map from coordinate key to tile, modelled as a
list of tiles with pairwise distinct coordinates (a JS Map has unique keys). -/
structure HexGrid where
  tiles : List HexTile
  nodupKeys : (tiles.map HexTile.coord).Nodup

/-- Lookup in the tile map (HexGrid.getTile). -/
def findTile : List HexTile → CubeCoord → Option HexTile
  | [], _ => none
  | t :: ts, c => if t.coord = c then some t else findTile ts c

/-- HexGrid.getTile. -/
def HexGrid.getTile (g : HexGrid) (c : CubeCoord) : Option HexTile :=
  findTile g.tiles c

/-- HexGrid.size. -/
def HexGrid.size (g : HexGrid) : Nat :=
  g.tiles.length

/-- The loop body of HexGrid.getTraversableNeighbors: collect existing
traversable tiles at the given coordinates, in order. -/
def collectTraversable (g : HexGrid) : List CubeCoord → List HexTile
  | [] => []
  | c :: cs =>
    match g.getTile c with
    | some t => if t.isTraversable then t :: collectTraversable g cs else collectTraversable g cs
    | none => collectTraversable g cs

/-- HexGrid.getTraversableNeighbors. -/
def HexGrid.getTraversableNeighbors (g : HexGrid) (c : CubeCoord) : List HexTile :=
  collectTraversable g (getNeighbors c)

/-- The loop body of HexGrid.getAllNeighbors: collect existing tiles. -/
def collectExisting (g : HexGrid) : List CubeCoord → List HexTile
  | [] => []
  | c :: cs =>
    match g.getTile c with
    | some t => t :: collectExisting g cs
    | none => collectExisting g cs

/-- HexGrid.getAllNeighbors. -/
def HexGrid.getAllNeighbors (g : HexGrid) (c : CubeCoord) : List HexTile :=
  collectExisting g (getNeighbors c)

/-- HexGrid.canMoveTo. -/
def HexGrid.canMoveTo (g : HexGrid) (src dst : CubeCoord) : Bool :=
  match g.getTile dst with
  | none => false
  | some t => t.isTraversable && decide (dst ∈ getNeighbors src)

/-! ### Basic facts about grid lookups -/

theorem findTile_eq_some {ts : List HexTile} {c : CubeCoord} {t : HexTile}
    (h : findTile ts c = some t) : t ∈ ts ∧ t.coord = c := by
  induction ts with
  | nil => simp [findTile] at h
  | cons a as ih =>
    by_cases hc : a.coord = c
    · simp only [findTile, if_pos hc] at h
      cases h
      exact ⟨List.mem_cons_self _ _, hc⟩
    · simp only [findTile, if_neg hc] at h
      rcases ih h with ⟨hm, he⟩
      exact ⟨List.mem_cons_of_mem a hm, he⟩

theorem findTile_mem {ts : List HexTile} (hnd : (ts.map HexTile.coord).Nodup)
    {t : HexTile} (h : t ∈ ts) : findTile ts t.coord = some t := by
  induction ts with
  | nil => cases h
  | cons a as ih =>
    rcases List.mem_cons.1 h with rfl | hmem
    · simp [findTile]
    · have hne : a.coord ≠ t.coord := by
        intro he
        have : t.coord ∈ as.map HexTile.coord := List.mem_map_of_mem HexTile.coord hmem
        rw [← he] at this
        exact (List.nodup_cons.1 hnd).1 this
      have hnd' : (as.map HexTile.coord).Nodup := (List.nodup_cons.1 hnd).2
      simp only [findTile, if_neg hne]
      exact ih hnd' hmem

theorem getTile_eq_some {g : HexGrid} {c : CubeCoord} {t : HexTile}
    (h : g.getTile c = some t) : t ∈ g.tiles ∧ t.coord = c :=
  findTile_eq_some h

theorem getTile_of_mem {g : HexGrid} {t : HexTile} (h : t ∈ g.tiles) :
    g.getTile t.coord = some t :=
  findTile_mem g.nodupKeys h

theorem mem_collectTraversable {g : HexGrid} {cs : List CubeCoord} {t : HexTile} :
    t ∈ collectTraversable g cs ↔
      ∃ c ∈ cs, g.getTile c = some t ∧ t.isTraversable = true := by
  induction cs with
  | nil => simp [collectTraversable]
  | cons c cs ih =>
    rcases hg : g.getTile c with _ | u
    · simp only [collectTraversable, hg]
      rw [ih]
      constructor
      · rintro ⟨c', hc', ht⟩
        exact ⟨c', List.mem_cons_of_mem c hc', ht⟩
      · rintro ⟨c', hc', hgt, htr⟩
        rcases List.mem_cons.1 hc' with rfl | hmem
        · rw [hg] at hgt; cases hgt
        · exact ⟨c', hmem, hgt, htr⟩
    · by_cases htr : u.isTraversable = true
      · simp only [collectTraversable, hg, if_pos htr]
        rw [List.mem_cons, ih]
        constructor
        · rintro (rfl | ⟨c', hc', ht⟩)
          · exact ⟨c, List.mem_cons_self c cs, hg, htr⟩
          · exact ⟨c', List.mem_cons_of_mem c hc', ht⟩
        · rintro ⟨c', hc', hgt, htr'⟩
          rcases List.mem_cons.1 hc' with rfl | hmem
          · rw [hg] at hgt; cases hgt; exact Or.inl rfl
          · exact Or.inr ⟨c', hmem, hgt, htr'⟩
      · simp only [collectTraversable, hg, if_neg htr]
        rw [ih]
        constructor
        · rintro ⟨c', hc', ht⟩
          exact ⟨c', List.mem_cons_of_mem c hc', ht⟩
        · rintro ⟨c', hc', hgt, htr'⟩
          rcases List.mem_cons.1 hc' with rfl | hmem
          · rw [hg] at hgt; cases hgt; exact absurd htr' htr
          · exact ⟨c', hmem, hgt, htr'⟩

theorem mem_collectExisting {g : HexGrid} {cs : List CubeCoord} {t : HexTile} :
    t ∈ collectExisting g cs ↔ ∃ c ∈ cs, g.getTile c = some t := by
  induction cs with
  | nil => simp [collectExisting]
  | cons c cs ih =>
    rcases hg : g.getTile c with _ | u
    · simp only [collectExisting, hg]
      rw [ih]
      constructor
      · rintro ⟨c', hc', ht⟩
        exact ⟨c', List.mem_cons_of_mem c hc', ht⟩
      · rintro ⟨c', hc', hgt⟩
        rcases List.mem_cons.1 hc' with rfl | hmem
        · rw [hg] at hgt; cases hgt
        · exact ⟨c', hmem, hgt⟩
    · simp only [collectExisting, hg]
      rw [List.mem_cons, ih]
      constructor
      · rintro (rfl | ⟨c', hc', ht⟩)
        · exact ⟨c, List.mem_cons_self c cs, hg⟩
        · exact ⟨c', List.mem_cons_of_mem c hc', ht⟩
      · rintro ⟨c', hc', hgt⟩
        rcases List.mem_cons.1 hc' with rfl | hmem
        · rw [hg] at hgt; cases hgt; exact Or.inl rfl
        · exact Or.inr ⟨c', hmem, hgt⟩

theorem mem_traversableNeighbors {g : HexGrid} {c : CubeCoord} {t : HexTile} :
    t ∈ g.getTraversableNeighbors c ↔
      t.coord ∈ getNeighbors c ∧ g.getTile t.coord = some t ∧ t.isTraversable = true := by
  unfold HexGrid.getTraversableNeighbors
  rw [mem_collectTraversable]
  constructor
  · rintro ⟨c', hc', hg, htr⟩
    have he := (getTile_eq_some hg).2
    subst he
    exact ⟨hc', hg, htr⟩
  · rintro ⟨hm, hg, htr⟩
    exact ⟨t.coord, hm, hg, htr⟩

theorem mem_allNeighbors {g : HexGrid} {c : CubeCoord} {t : HexTile} :
    t ∈ g.getAllNeighbors c ↔ t.coord ∈ getNeighbors c ∧ g.getTile t.coord = some t := by
  unfold HexGrid.getAllNeighbors
  rw [mem_collectExisting]
  constructor
  · rintro ⟨c', hc', hg⟩
    have he := (getTile_eq_some hg).2
    subst he
    exact ⟨hc', hg⟩
  · rintro ⟨hm, hg⟩
    exact ⟨t.coord, hm, hg⟩

/-! ### Hex distance: identity, adjacency, triangle inequality -/

theorem cubeDistance_self (c : CubeCoord) : cubeDistance c c = 0 := by
  simp [cubeDistance]

theorem cubeDistance_triangle (a b c : CubeCoord) :
    cubeDistance a c ≤ cubeDistance a b + cubeDistance b c := by
  unfold cubeDistance
  have key : ∀ x y z : Int, (x - z).natAbs ≤ (x - y).natAbs + (y - z).natAbs := by
    intro x y z
    have h : x - z = (x - y) + (y - z) := by ring
    rw [h]
    exact Int.natAbs_add_le _ _
  refine max_le ?_ (max_le ?_ ?_)
  · exact le_trans (key a.q b.q c.q)
      (Nat.add_le_add (le_max_left _ _) (le_max_left _ _))
  · exact le_trans (key a.r b.r c.r)
      (Nat.add_le_add (le_trans (le_max_left _ _) (le_max_right _ _))
        (le_trans (le_max_left _ _) (le_max_right _ _)))
  · exact le_trans (key a.s b.s c.s)
      (Nat.add_le_add (le_trans (le_max_right _ _) (le_max_right _ _))
        (le_trans (le_max_right _ _) (le_max_right _ _)))

theorem cubeDistance_neighbor {c c' : CubeCoord} (h : c' ∈ getNeighbors c) :
    cubeDistance c c' = 1 := by
  unfold getNeighbors cubeDirections at h
  simp only [List.map_cons, List.map_nil, List.mem_cons, List.not_mem_nil, or_false] at h
  rcases h with h | h | h | h | h | h <;> subst h <;> simp [cubeDistance]

theorem getNeighbors_nodup (c : CubeCoord) : (getNeighbors c).Nodup := by
  simp [getNeighbors, cubeDirections, CubeCoord.mk.injEq]

theorem collectExisting_coords_sublist (g : HexGrid) (cs : List CubeCoord) :
    ((collectExisting g cs).map HexTile.coord).Sublist cs := by
  induction cs with
  | nil => simp [collectExisting]
  | cons c cs ih =>
    rcases hg : g.getTile c with _ | u
    · simp only [collectExisting, hg]
      exact ih.cons c
    · simp only [collectExisting, hg, List.map_cons]
      have hc : u.coord = c := (getTile_eq_some hg).2
      rw [hc]
      exact ih.cons₂ c

theorem collectTraversable_sublist_collectExisting (g : HexGrid) (cs : List CubeCoord) :
    (collectTraversable g cs).Sublist (collectExisting g cs) := by
  induction cs with
  | nil => simp [collectTraversable, collectExisting]
  | cons c cs ih =>
    rcases hg : g.getTile c with _ | u
    · simp only [collectTraversable, collectExisting, hg]
      exact ih
    · by_cases htr : u.isTraversable = true
      · simp only [collectTraversable, collectExisting, hg, if_pos htr]
        exact ih.cons₂ u
      · simp only [collectTraversable, collectExisting, hg, if_neg htr]
        exact ih.cons u

theorem allNeighbors_coords_nodup (g : HexGrid) (c : CubeCoord) :
    ((g.getAllNeighbors c).map HexTile.coord).Nodup :=
  (getNeighbors_nodup c).sublist (collectExisting_coords_sublist g (getNeighbors c))

theorem traversableNeighbors_coords_nodup (g : HexGrid) (c : CubeCoord) :
    ((g.getTraversableNeighbors c).map HexTile.coord).Nodup :=
  (allNeighbors_coords_nodup g c).sublist
    ((collectTraversable_sublist_collectExisting g (getNeighbors c)).map HexTile.coord)

/-! ### Offset/cube conversion round trip -/

theorem cubeToOffset_offsetToCube (col row : Int) :
    cubeToOffset (offsetToCube col row) = (col, row) := by
  simp only [offsetToCube, cubeToOffset, createCube, jsAnd1, Prod.mk.injEq, true_and]
  omega

theorem offsetToCube_cubeToOffset (c : CubeCoord) (h : c.q + c.r + c.s = 0) :
    offsetToCube (cubeToOffset c).1 (cubeToOffset c).2 = c := by
  cases c with
  | mk q r s =>
    simp only [offsetToCube, cubeToOffset, createCube, jsAnd1, CubeCoord.mk.injEq,
      true_and] at h ⊢
    omega

/-! ### Unlock system (shared/systems/UnlockSystem.ts)

The grid reference held by the TS class is passed explicitly; the
insertion-ordered `Set<string>` of unlocked keys is the list `unlockedKeys`. -/

structure UnlockSystem where
  unlockedKeys : List CubeCoord
deriving DecidableEq

/-- UnlockSystem.isUnlocked. -/
def UnlockSystem.isUnlocked (u : UnlockSystem) (t : HexTile) : Bool :=
  decide (t.coord ∈ u.unlockedKeys)

/-- UnlockSystem.isUnlockedByKey. -/
def UnlockSystem.isUnlockedByKey (u : UnlockSystem) (k : CubeCoord) : Bool :=
  decide (k ∈ u.unlockedKeys)

/-- UnlockSystem.unlockTile: adds the tile's key unless present; the Bool is
the return value (true iff newly added). -/
def UnlockSystem.unlockTile (u : UnlockSystem) (t : HexTile) : UnlockSystem × Bool :=
  if t.coord ∈ u.unlockedKeys then (u, false)
  else (⟨u.unlockedKeys ++ [t.coord]⟩, true)

/-- The neighbor loop of UnlockSystem.unlockAdjacentTiles: for each neighbor in
order, if traversable and not already unlocked, add its key and record it. -/
def unlockFold : UnlockSystem × List HexTile → List HexTile → UnlockSystem × List HexTile
  | acc, [] => acc
  | (u, newly), nb :: rest =>
    if nb.isTraversable = true ∧ nb.coord ∉ u.unlockedKeys then
      unlockFold (⟨u.unlockedKeys ++ [nb.coord]⟩, newly ++ [nb]) rest
    else
      unlockFold (u, newly) rest

/-- UnlockSystem.unlockAdjacentTiles: returns the updated system and the list
of newly unlocked tiles. -/
def UnlockSystem.unlockAdjacentTiles (u : UnlockSystem) (g : HexGrid) (t : HexTile) :
    UnlockSystem × List HexTile :=
  unlockFold (u, []) (g.getAllNeighbors t.coord)

/-- UnlockSystem.getUnlockedKeys. -/
def UnlockSystem.getUnlockedKeys (u : UnlockSystem) : List CubeCoord :=
  u.unlockedKeys

/-- The UnlockSystem constructor: unlock the starting tile and its traversable
neighbors. -/
def UnlockSystem.create (g : HexGrid) (startTile : HexTile) : UnlockSystem :=
  let u0 : UnlockSystem := ⟨[]⟩
  let u1 := (u0.unlockTile startTile).1
  (u1.unlockAdjacentTiles g startTile).1

/-! ### Facts about the unlock fold -/

theorem unlockFold_append (nbs : List HexTile) (u : UnlockSystem) (acc : List HexTile) :
    ∃ ext keys,
      unlockFold (u, acc) nbs =
        (⟨u.unlockedKeys ++ keys⟩, acc ++ ext) ∧ keys = ext.map HexTile.coord := by
  induction nbs generalizing u acc with
  | nil => exact ⟨[], [], by simp [unlockFold], by simp⟩
  | cons nb rest ih =>
    by_cases hc : nb.isTraversable = true ∧ nb.coord ∉ u.unlockedKeys
    · simp only [unlockFold, if_pos hc]
      rcases ih ⟨u.unlockedKeys ++ [nb.coord]⟩ (acc ++ [nb]) with ⟨ext, keys, heq, hk⟩
      exact ⟨nb :: ext, nb.coord :: keys, by simpa using heq, by simp [hk]⟩
    · simp only [unlockFold, if_neg hc]
      exact ih u acc

theorem unlockFold_keys_mem (nbs : List HexTile) (u : UnlockSystem) (acc : List HexTile)
    (k : CubeCoord) :
    k ∈ (unlockFold (u, acc) nbs).1.unlockedKeys ↔
      k ∈ u.unlockedKeys ∨ ∃ x ∈ nbs, x.isTraversable = true ∧ x.coord = k := by
  induction nbs generalizing u acc with
  | nil => simp [unlockFold]
  | cons nb rest ih =>
    by_cases hc : nb.isTraversable = true ∧ nb.coord ∉ u.unlockedKeys
    · simp only [unlockFold, if_pos hc]
      rw [ih]
      simp only [List.mem_append, List.mem_cons, List.not_mem_nil, or_false,
        List.mem_singleton]
      constructor
      · rintro ((hk | rfl) | ⟨x, hx, htr, rfl⟩)
        · exact Or.inl hk
        · exact Or.inr ⟨nb, Or.inl rfl, hc.1, rfl⟩
        · exact Or.inr ⟨x, Or.inr hx, htr, rfl⟩
      · rintro (hk | ⟨x, hx | hx, htr, rfl⟩)
        · exact Or.inl (Or.inl hk)
        · subst hx
          exact Or.inl (Or.inr rfl)
        · exact Or.inr ⟨x, hx, htr, rfl⟩
    · simp only [unlockFold, if_neg hc]
      rw [ih]
      constructor
      · rintro (hk | ⟨x, hx, htr, rfl⟩)
        · exact Or.inl hk
        · exact Or.inr ⟨x, List.mem_cons_of_mem nb hx, htr, rfl⟩
      · rintro (hk | ⟨x, hx, htr, rfl⟩)
        · exact Or.inl hk
        · rcases List.mem_cons.1 hx with rfl | hx'
          · rcases not_and_or.1 hc with h1 | h2
            · exact absurd htr h1
            · exact Or.inl (not_not.1 h2)
          · exact Or.inr ⟨x, hx', htr, rfl⟩

theorem unlockFold_newly_mem (nbs : List HexTile) (u : UnlockSystem) (acc : List HexTile)
    (hnd : (nbs.map HexTile.coord).Nodup) (x : HexTile) :
    x ∈ (unlockFold (u, acc) nbs).2 ↔
      x ∈ acc ∨ (x ∈ nbs ∧ x.isTraversable = true ∧ x.coord ∉ u.unlockedKeys) := by
  induction nbs generalizing u acc with
  | nil => simp [unlockFold]
  | cons nb rest ih =>
    have hnd1 : nb.coord ∉ rest.map HexTile.coord := (List.nodup_cons.1 hnd).1
    have hnd2 : (rest.map HexTile.coord).Nodup := (List.nodup_cons.1 hnd).2
    by_cases hc : nb.isTraversable = true ∧ nb.coord ∉ u.unlockedKeys
    · simp only [unlockFold, if_pos hc]
      rw [ih _ _ hnd2]
      simp only [List.mem_append, List.mem_cons, List.not_mem_nil, or_false]
      constructor
      · rintro ((hx | rfl) | ⟨hx, htr, hnk⟩)
        · exact Or.inl hx
        · exact Or.inr ⟨Or.inl rfl, hc.1, hc.2⟩
        · exact Or.inr ⟨Or.inr hx, htr, fun hmem => hnk (Or.inl hmem)⟩
      · rintro (hx | ⟨hx | hx, htr, hnk⟩)
        · exact Or.inl (Or.inl hx)
        · subst hx
          exact Or.inl (Or.inr rfl)
        · refine Or.inr ⟨hx, htr, ?_⟩
          rintro (h1 | h2)
          · exact hnk h1
          · exact hnd1 (h2 ▸ List.mem_map_of_mem HexTile.coord hx)
    · simp only [unlockFold, if_neg hc]
      rw [ih _ _ hnd2]
      constructor
      · rintro (hx | ⟨hx, htr, hnk⟩)
        · exact Or.inl hx
        · exact Or.inr ⟨List.mem_cons_of_mem nb hx, htr, hnk⟩
      · rintro (hx | ⟨hx, htr, hnk⟩)
        · exact Or.inl hx
        · rcases List.mem_cons.1 hx with rfl | hx'
          · rcases not_and_or.1 hc with h1 | h2
            · exact absurd htr h1
            · exact absurd (not_not.1 h2) hnk
          · exact Or.inr ⟨hx', htr, hnk⟩

theorem unlockFold_fixed (nbs : List HexTile) (u : UnlockSystem) (acc : List HexTile)
    (h : ∀ x ∈ nbs, x.isTraversable = true → x.coord ∈ u.unlockedKeys) :
    unlockFold (u, acc) nbs = (u, acc) := by
  induction nbs with
  | nil => rfl
  | cons nb rest ih =>
    have hc : ¬(nb.isTraversable = true ∧ nb.coord ∉ u.unlockedKeys) := by
      rintro ⟨htr, hnk⟩
      exact hnk (h nb (List.mem_cons_self nb rest) htr)
    simp only [unlockFold, if_neg hc]
    exact ih (fun x hx htr => h x (List.mem_cons_of_mem nb hx) htr)

/-! ### A* pathfinder (map/HexPathfinder.ts)

A `PathNode` of the source holds a mutable `parent` pointer; a node's parent is
always a node that has already been moved to the closed set and is never
mutated afterwards, so the parent chain is equivalently materialized here as
`path`, the reconstructed tile list from the start to this node (what the
source's `reconstructPath` would return for it). The `openSet : Map<string,
PathNode>` is an insertion-ordered list keyed by tile coordinate: `Map.set` on
a fresh key appends, an update keeps the entry in place, `Map.delete` removes
the single entry with that key. -/

structure PathNode where
  tile : HexTile
  g : Nat
  h : Nat
  f : Nat
  path : List HexTile

/-- Lookup `openSet.get(key)`. -/
def findNode : List PathNode → CubeCoord → Option PathNode
  | [], _ => none
  | n :: ns, c => if n.tile.coord = c then some n else findNode ns c

/-- The `for (const node of openSet.values())` minimum scan: starting from a
first candidate, replace it only on a strictly smaller f. -/
def selectMinFrom (best : PathNode) : List PathNode → PathNode
  | [] => best
  | n :: rest => if n.f < best.f then selectMinFrom n rest else selectMinFrom best rest

/-- Selection of the open node with the lowest f score (first such in
insertion order); `none` iff the open set is empty. -/
def selectMin : List PathNode → Option PathNode
  | [] => none
  | n :: rest => some (selectMinFrom n rest)

/-- The unlock gate: with an unlock system supplied only unlocked tiles pass,
otherwise every tile passes. -/
def unlockGate (unlock? : Option UnlockSystem) (t : HexTile) : Bool :=
  match unlock? with
  | some u => u.isUnlocked t
  | none => true

/-- The body of the neighbor loop in findPath: skip closed or gated-out
neighbors; otherwise insert a new node or relax an existing one in place. -/
def relaxNeighbor (gate : HexTile → Bool) (goal : CubeCoord) (cur : PathNode)
    (closed : List CubeCoord) (acc : List PathNode) (b : HexTile) : List PathNode :=
  if b.coord ∈ closed then acc
  else if gate b = false then acc
  else
    match findNode acc b.coord with
    | none =>
      acc ++ [⟨b, cur.g + 1, cubeDistance b.coord goal,
        cur.g + 1 + cubeDistance b.coord goal, cur.path ++ [b]⟩]
    | some ex =>
      if cur.g + 1 < ex.g then
        acc.map (fun n =>
          if n.tile.coord = b.coord then
            ⟨n.tile, cur.g + 1, n.h, cur.g + 1 + n.h, cur.path ++ [b]⟩
          else n)
      else acc

/-- The while loop of findPath, with explicit fuel (the loop closes one grid
tile per iteration, so `g.size + 1` fuel is never exhausted — proved below). -/
def astarLoop (g : HexGrid) (gate : HexTile → Bool) (goal : CubeCoord) :
    Nat → List PathNode → List CubeCoord → Option (List HexTile)
  | 0, _, _ => none
  | fuel + 1, openL, closed =>
    match selectMin openL with
    | none => none
    | some cur =>
      if cur.tile.coord = goal then some cur.path
      else
        astarLoop g gate goal fuel
          ((g.getTraversableNeighbors cur.tile.coord).foldl
            (relaxNeighbor gate goal cur (cur.tile.coord :: closed))
            (openL.filter (fun n => decide (¬n.tile.coord = cur.tile.coord))))
          (cur.tile.coord :: closed)

/-- HexPathfinder.findPath: start/goal existence, goal traversability, goal
unlock gate, the start == goal early return, then the A* loop. -/
def findPath (g : HexGrid) (start goal : CubeCoord) (unlock? : Option UnlockSystem) :
    Option (List HexTile) :=
  match g.getTile start, g.getTile goal with
  | some startTile, some goalTile =>
    if goalTile.isTraversable = false then none
    else if unlockGate unlock? goalTile = false then none
    else if startTile.coord = goalTile.coord then some [startTile]
    else
      astarLoop g (unlockGate unlock?) goal (g.size + 1)
        [⟨startTile, 0, cubeDistance start goal, cubeDistance start goal, [startTile]⟩] []
  | _, _ => none

/-! ### Path specification

A valid step goes to an existing, traversable, adjacent tile passing the gate;
a valid path is a nonempty chain of valid steps whose head is the grid's tile
at the start coordinate and whose last tile sits at the goal coordinate. -/

def ValidStepC (g : HexGrid) (gate : HexTile → Bool) (c : CubeCoord) (b : HexTile) : Prop :=
  b ∈ g.getTraversableNeighbors c ∧ gate b = true

def ValidStep (g : HexGrid) (gate : HexTile → Bool) (a b : HexTile) : Prop :=
  ValidStepC g gate a.coord b

def IsPath (g : HexGrid) (gate : HexTile → Bool) (start goal : CubeCoord)
    (p : List HexTile) : Prop :=
  (∃ t, g.getTile start = some t ∧ p.head? = some t) ∧
  (∃ t, p.getLast? = some t ∧ t.coord = goal) ∧
  List.Chain' (ValidStep g gate) p

/-- A valid path from start to c with m steps (m + 1 tiles). -/
def ReachN (g : HexGrid) (gate : HexTile → Bool) (start c : CubeCoord) (m : Nat) : Prop :=
  ∃ p, IsPath g gate start c p ∧ p.length = m + 1

/-! ### Facts about selectMin and findNode -/

theorem selectMinFrom_spec (l : List PathNode) (best : PathNode) :
    selectMinFrom best l ∈ best :: l ∧ (selectMinFrom best l).f ≤ best.f ∧
      ∀ n ∈ l, (selectMinFrom best l).f ≤ n.f := by
  induction l generalizing best with
  | nil => exact ⟨List.mem_cons_self _ _, le_refl _, by simp⟩
  | cons n rest ih =>
    by_cases hf : n.f < best.f
    · simp only [selectMinFrom, if_pos hf]
      rcases ih n with ⟨hmem, hle, hall⟩
      refine ⟨List.mem_cons_of_mem best hmem, le_trans hle (le_of_lt hf), ?_⟩
      intro m hm
      rcases List.mem_cons.1 hm with rfl | hm'
      · exact hle
      · exact hall m hm'
    · simp only [selectMinFrom, if_neg hf]
      rcases ih best with ⟨hmem, hle, hall⟩
      refine ⟨?_, hle, ?_⟩
      · rcases List.mem_cons.1 hmem with h | h
        · rw [h]
          exact List.mem_cons_self best _
        · exact List.mem_cons_of_mem best (List.mem_cons_of_mem n h)
      · intro m hm
        rcases List.mem_cons.1 hm with rfl | hm'
        · exact le_trans hle (le_of_not_lt hf)
        · exact hall m hm'

theorem selectMin_spec {l : List PathNode} {cur : PathNode} (h : selectMin l = some cur) :
    cur ∈ l ∧ ∀ n ∈ l, cur.f ≤ n.f := by
  cases l with
  | nil => cases h
  | cons n rest =>
    simp only [selectMin, Option.some.injEq] at h
    subst h
    rcases selectMinFrom_spec rest n with ⟨hmem, hle, hall⟩
    refine ⟨hmem, ?_⟩
    intro m hm
    rcases List.mem_cons.1 hm with rfl | hm'
    · exact hle
    · exact hall m hm'

theorem selectMin_none {l : List PathNode} (h : selectMin l = none) : l = [] := by
  cases l with
  | nil => rfl
  | cons n rest => cases h

theorem findNode_eq_some {l : List PathNode} {c : CubeCoord} {n : PathNode}
    (h : findNode l c = some n) : n ∈ l ∧ n.tile.coord = c := by
  induction l with
  | nil => cases h
  | cons a as ih =>
    by_cases hc : a.tile.coord = c
    · simp only [findNode, if_pos hc] at h
      cases h
      exact ⟨List.mem_cons_self _ _, hc⟩
    · simp only [findNode, if_neg hc] at h
      rcases ih h with ⟨hm, he⟩
      exact ⟨List.mem_cons_of_mem a hm, he⟩

theorem findNode_none {l : List PathNode} {c : CubeCoord} (h : findNode l c = none) :
    ∀ n ∈ l, n.tile.coord ≠ c := by
  induction l with
  | nil => intro n hn; cases hn
  | cons a as ih =>
    by_cases hc : a.tile.coord = c
    · simp only [findNode, if_pos hc] at h
      cases h
    · simp only [findNode, if_neg hc] at h
      intro n hn
      rcases List.mem_cons.1 hn with rfl | hn'
      · exact hc
      · exact ih h n hn'

theorem findNode_of_mem {l : List PathNode} (hnd : (l.map fun n => n.tile.coord).Nodup)
    {n : PathNode} (h : n ∈ l) : findNode l n.tile.coord = some n := by
  induction l with
  | nil => cases h
  | cons a as ih =>
    rcases List.mem_cons.1 h with rfl | hmem
    · simp [findNode]
    · have hne : a.tile.coord ≠ n.tile.coord := by
        intro he
        have : n.tile.coord ∈ as.map fun m => m.tile.coord :=
          List.mem_map_of_mem _ hmem
        rw [← he] at this
        exact (List.nodup_cons.1 hnd).1 this
      simp only [findNode, if_neg hne]
      exact ih (List.nodup_cons.1 hnd).2 hmem

theorem node_unique {l : List PathNode} (hnd : (l.map fun n => n.tile.coord).Nodup)
    {n₁ n₂ : PathNode} (h₁ : n₁ ∈ l) (h₂ : n₂ ∈ l)
    (hc : n₁.tile.coord = n₂.tile.coord) : n₁ = n₂ := by
  have e₁ := findNode_of_mem hnd h₁
  have e₂ := findNode_of_mem hnd h₂
  rw [hc] at e₁
  rw [e₁] at e₂
  exact Option.some.inj e₂

/-! ### Facts about valid paths -/

theorem ValidStep.gridTile {g : HexGrid} {gate : HexTile → Bool} {c : CubeCoord}
    {b : HexTile} (h : ValidStepC g gate c b) :
    b.coord ∈ getNeighbors c ∧ g.getTile b.coord = some b ∧
      b.isTraversable = true ∧ gate b = true := by
  rcases h with ⟨hm, hg⟩
  rcases mem_traversableNeighbors.1 hm with ⟨h1, h2, h3⟩
  exact ⟨h1, h2, h3, hg⟩

theorem IsPath.ne_nil {g : HexGrid} {gate : HexTile → Bool} {start goal : CubeCoord}
    {p : List HexTile} (h : IsPath g gate start goal p) : p ≠ [] := by
  rcases h.1 with ⟨t, _, hh⟩
  intro he
  rw [he] at hh
  cases hh

theorem IsPath.one_le_length {g : HexGrid} {gate : HexTile → Bool} {start goal : CubeCoord}
    {p : List HexTile} (h : IsPath g gate start goal p) : 1 ≤ p.length := by
  have := h.ne_nil
  cases p with
  | nil => exact absurd rfl this
  | cons a l => simp

theorem isPath_singleton {g : HexGrid} {gate : HexTile → Bool} {c : CubeCoord}
    {t : HexTile} (h : g.getTile c = some t) : IsPath g gate c c [t] := by
  refine ⟨⟨t, h, rfl⟩, ⟨t, rfl, (getTile_eq_some h).2⟩, ?_⟩
  simp

theorem isPath_snoc {g : HexGrid} {gate : HexTile → Bool} {start c : CubeCoord}
    {p : List HexTile} {a b : HexTile} (hp : IsPath g gate start c p)
    (hlast : p.getLast? = some a) (hstep : ValidStep g gate a b) :
    IsPath g gate start b.coord (p ++ [b]) := by
  rcases hp with ⟨⟨t, hgt, hh⟩, ⟨u, hl, hc⟩, hch⟩
  refine ⟨⟨t, hgt, ?_⟩, ⟨b, ?_, rfl⟩, ?_⟩
  · cases p with
    | nil => cases hh
    | cons x l => simpa using hh
  · simp [List.getLast?_concat]
  · rw [List.chain'_append]
    refine ⟨hch, List.chain'_singleton b, ?_⟩
    intro x hx y hy
    rw [hlast] at hx
    cases hx
    simp only [List.head?_cons, Option.mem_def, Option.some.injEq] at hy
    subst hy
    exact hstep

theorem isPath_prefix {g : HexGrid} {gate : HexTile → Bool} {start z : CubeCoord}
    {pre suf : List HexTile} {a : HexTile}
    (hp : IsPath g gate start z (pre ++ suf)) (hlast : pre.getLast? = some a) :
    IsPath g gate start a.coord pre := by
  have hne : pre ≠ [] := by
    intro he
    rw [he] at hlast
    cases hlast
  rcases hp with ⟨⟨t, hgt, hh⟩, _, hch⟩
  refine ⟨⟨t, hgt, ?_⟩, ⟨a, hlast, rfl⟩, (List.chain'_append.1 hch).1⟩
  cases pre with
  | nil => exact absurd rfl hne
  | cons x l => simpa using hh

theorem chain_append_step {g : HexGrid} {gate : HexTile → Bool}
    {pre suf : List HexTile} {a y : HexTile}
    (hch : List.Chain' (ValidStep g gate) (pre ++ y :: suf))
    (hlast : pre.getLast? = some a) : ValidStep g gate a y := by
  have h := (List.chain'_append.1 hch).2.2
  exact h a hlast y rfl

theorem chain_cubeDistance {g : HexGrid} {gate : HexTile → Bool} {goal : CubeCoord} :
    ∀ (suf : List HexTile) (y t : HexTile),
      List.Chain' (ValidStep g gate) (y :: suf) → (y :: suf).getLast? = some t →
      cubeDistance y.coord goal ≤ suf.length + cubeDistance t.coord goal := by
  intro suf
  induction suf with
  | nil =>
    intro y t _ hlast
    simp only [List.getLast?_singleton, Option.some.injEq] at hlast
    subst hlast
    simp
  | cons b rest ih =>
    intro y t hch hlast
    have hstep : ValidStep g gate y b := (List.chain'_cons.1 hch).1
    have hch' : List.Chain' (ValidStep g gate) (b :: rest) := (List.chain'_cons.1 hch).2
    have hlast' : (b :: rest).getLast? = some t := by
      rw [← hlast]
      simp [List.getLast?_cons_cons]
    have hone : cubeDistance y.coord b.coord = 1 :=
      cubeDistance_neighbor (ValidStep.gridTile hstep).1
    have htri : cubeDistance y.coord goal ≤
        cubeDistance y.coord b.coord + cubeDistance b.coord goal :=
      cubeDistance_triangle _ _ _
    have hih := ih b t hch' hlast'
    rw [hone] at htri
    calc cubeDistance y.coord goal ≤ 1 + cubeDistance b.coord goal := htri
    _ ≤ 1 + (rest.length + cubeDistance t.coord goal) := by omega
    _ = (b :: rest).length + cubeDistance t.coord goal := by simp; omega

theorem exists_first_open (closed : List CubeCoord) :
    ∀ p : List HexTile, (∃ x ∈ p, x.coord ∉ closed) →
      ∃ pre y suf, p = pre ++ y :: suf ∧ (∀ x ∈ pre, x.coord ∈ closed) ∧
        y.coord ∉ closed := by
  intro p
  induction p with
  | nil => rintro ⟨x, hx, _⟩; cases hx
  | cons a rest ih =>
    intro hex
    by_cases ha : a.coord ∈ closed
    · have hex' : ∃ x ∈ rest, x.coord ∉ closed := by
        rcases hex with ⟨x, hx, hnc⟩
        rcases List.mem_cons.1 hx with rfl | hx'
        · exact absurd ha hnc
        · exact ⟨x, hx', hnc⟩
      rcases ih hex' with ⟨pre, y, suf, heq, hall, hy⟩
      refine ⟨a :: pre, y, suf, by rw [heq]; rfl, ?_, hy⟩
      intro x hx
      rcases List.mem_cons.1 hx with rfl | hx'
      · exact ha
      · exact hall x hx'
    · exact ⟨[], a, rest, rfl, by simp, ha⟩

theorem closed_length_le {g : HexGrid} {closed : List CubeCoord} (hnd : closed.Nodup)
    (hin : ∀ c ∈ closed, ∃ t, g.getTile c = some t) : closed.length ≤ g.size := by
  have hsub : closed ⊆ g.tiles.map HexTile.coord := by
    intro c hc
    rcases hin c hc with ⟨t, ht⟩
    rcases getTile_eq_some ht with ⟨hmem, hco⟩
    rw [← hco]
    exact List.mem_map_of_mem HexTile.coord hmem
  have := (hnd.subperm hsub).length_le
  simpa [HexGrid.size] using this

/-! ### The A* loop invariant -/

/-- Well-formedness of an open node: its path is a valid path from the start
to its tile, of length g + 1, ending at the tile; h is the heuristic at the
tile; f = g + h; and the tile is the grid's tile at its coordinate. -/
def NodeWF (g : HexGrid) (gate : HexTile → Bool) (start goal : CubeCoord)
    (n : PathNode) : Prop :=
  IsPath g gate start n.tile.coord n.path ∧
  n.path.getLast? = some n.tile ∧
  n.path.length = n.g + 1 ∧
  n.h = cubeDistance n.tile.coord goal ∧
  n.f = n.g + n.h ∧
  g.getTile n.tile.coord = some n.tile

structure AStarInv (g : HexGrid) (gate : HexTile → Bool) (start goal : CubeCoord)
    (openL : List PathNode) (closed : List CubeCoord) : Prop where
  openNodup : (openL.map fun n => n.tile.coord).Nodup
  closedNodup : closed.Nodup
  disj : ∀ n ∈ openL, n.tile.coord ∉ closed
  wf : ∀ n ∈ openL, NodeWF g gate start goal n
  closedGrid : ∀ c ∈ closed, ∃ t, g.getTile c = some t
  startInv : start ∈ closed ∨ ∃ n ∈ openL, n.tile.coord = start ∧ n.g = 0
  closedSucc : ∀ c ∈ closed, ∀ m, ReachN g gate start c m →
    ∀ b, ValidStepC g gate c b →
      b.coord ∈ closed ∨ ∃ n ∈ openL, n.tile.coord = b.coord ∧ n.g ≤ m + 1
  goalOpen : goal ∉ closed

/-! ### Preservation through one neighbor relaxation -/

section RelaxLemmas

variable {g : HexGrid} {gate : HexTile → Bool} {start goal : CubeCoord}
variable {cur : PathNode} {closed : List CubeCoord} {acc : List PathNode} {b : HexTile}

theorem relax_nodup (hnd : (acc.map fun n => n.tile.coord).Nodup) :
    ((relaxNeighbor gate goal cur closed acc b).map fun n => n.tile.coord).Nodup := by
  by_cases hcl : b.coord ∈ closed
  · simpa [relaxNeighbor, if_pos hcl] using hnd
  by_cases hgt : gate b = false
  · simpa [relaxNeighbor, if_neg hcl, if_pos hgt] using hnd
  rcases hfn : findNode acc b.coord with _ | ex
  · simp only [relaxNeighbor, if_neg hcl, if_neg hgt, hfn, List.map_append,
      List.map_cons, List.map_nil]
    refine List.Nodup.append hnd (List.nodup_singleton _) ?_
    intro x hx hy
    rw [List.mem_singleton] at hy
    subst hy
    rcases List.mem_map.1 hx with ⟨n, hn, hcoord⟩
    exact findNode_none hfn n hn hcoord
  · by_cases hlt : cur.g + 1 < ex.g
    · simp only [relaxNeighbor, if_neg hcl, if_neg hgt, hfn, if_pos hlt, List.map_map]
      have hmc : ∀ n ∈ acc,
          ((fun n : PathNode => n.tile.coord) ∘ fun n : PathNode =>
            if n.tile.coord = b.coord then
              ⟨n.tile, cur.g + 1, n.h, cur.g + 1 + n.h, cur.path ++ [b]⟩
            else n) n = n.tile.coord := by
        intro n _
        by_cases hc : n.tile.coord = b.coord <;> simp [hc]
      rw [List.map_congr_left hmc]
      exact hnd
    · simpa [relaxNeighbor, if_neg hcl, if_neg hgt, hfn, if_neg hlt] using hnd

theorem relax_persist (hnd : (acc.map fun n => n.tile.coord).Nodup) :
    ∀ n ∈ acc, ∃ n' ∈ relaxNeighbor gate goal cur closed acc b,
      n'.tile = n.tile ∧ n'.g ≤ n.g := by
  intro n hn
  by_cases hcl : b.coord ∈ closed
  · exact ⟨n, by simpa [relaxNeighbor, if_pos hcl] using hn, rfl, le_refl _⟩
  by_cases hgt : gate b = false
  · exact ⟨n, by simpa [relaxNeighbor, if_neg hcl, if_pos hgt] using hn, rfl, le_refl _⟩
  rcases hfn : findNode acc b.coord with _ | ex
  · refine ⟨n, ?_, rfl, le_refl _⟩
    simp only [relaxNeighbor, if_neg hcl, if_neg hgt, hfn]
    exact List.mem_append_left _ hn
  · by_cases hlt : cur.g + 1 < ex.g
    · simp only [relaxNeighbor, if_neg hcl, if_neg hgt, hfn, if_pos hlt]
      by_cases hc : n.tile.coord = b.coord
      · have hex := findNode_eq_some hfn
        have : n = ex := node_unique hnd hn hex.1 (by rw [hc, hex.2])
        subst this
        refine ⟨⟨n.tile, cur.g + 1, n.h, cur.g + 1 + n.h, cur.path ++ [b]⟩, ?_, rfl, ?_⟩
        · have := List.mem_map_of_mem (fun m : PathNode =>
            if m.tile.coord = b.coord then
              (⟨m.tile, cur.g + 1, m.h, cur.g + 1 + m.h, cur.path ++ [b]⟩ : PathNode)
            else m) hn
          simpa [hc] using this
        · exact le_of_lt hlt
      · refine ⟨n, ?_, rfl, le_refl _⟩
        have := List.mem_map_of_mem (fun m : PathNode =>
          if m.tile.coord = b.coord then
            (⟨m.tile, cur.g + 1, m.h, cur.g + 1 + m.h, cur.path ++ [b]⟩ : PathNode)
          else m) hn
        simpa [hc] using this
    · exact ⟨n, by simpa [relaxNeighbor, if_neg hcl, if_neg hgt, hfn, if_neg hlt] using hn,
        rfl, le_refl _⟩

theorem relax_wf (hwf : ∀ n ∈ acc, NodeWF g gate start goal n)
    (hwfc : NodeWF g gate start goal cur)
    (hb : b ∈ g.getTraversableNeighbors cur.tile.coord) :
    ∀ n' ∈ relaxNeighbor gate goal cur closed acc b, NodeWF g gate start goal n' := by
  intro n' hn'
  by_cases hcl : b.coord ∈ closed
  · exact hwf n' (by simpa [relaxNeighbor, if_pos hcl] using hn')
  by_cases hgt : gate b = false
  · exact hwf n' (by simpa [relaxNeighbor, if_neg hcl, if_pos hgt] using hn')
  have hgb : gate b = true := by
    cases h : gate b
    · exact absurd h hgt
    · rfl
  have hstep : ValidStep g gate cur.tile b := ⟨hb, hgb⟩
  have hbt : g.getTile b.coord = some b := (mem_traversableNeighbors.1 hb).2.1
  have hnewpath : IsPath g gate start b.coord (cur.path ++ [b]) :=
    isPath_snoc hwfc.1 hwfc.2.1 hstep
  rcases hfn : findNode acc b.coord with _ | ex
  · simp only [relaxNeighbor, if_neg hcl, if_neg hgt, hfn] at hn'
    rcases List.mem_append.1 hn' with h | h
    · exact hwf n' h
    · rw [List.mem_singleton] at h
      subst h
      refine ⟨hnewpath, ?_, ?_, rfl, rfl, hbt⟩
      · simp [List.getLast?_concat]
      · simp only [List.length_append, List.length_singleton]
        rw [hwfc.2.2.1]
  · by_cases hlt : cur.g + 1 < ex.g
    · simp only [relaxNeighbor, if_neg hcl, if_neg hgt, hfn, if_pos hlt] at hn'
      rcases List.mem_map.1 hn' with ⟨n, hn, hupd⟩
      by_cases hc : n.tile.coord = b.coord
      · rw [if_pos hc] at hupd
        subst hupd
        have htile : n.tile = b := by
          have h1 := (hwf n hn).2.2.2.2.2
          rw [hc, hbt] at h1
          exact (Option.some.inj h1).symm
        refine ⟨?_, ?_, ?_, ?_, rfl, ?_⟩
        · show IsPath g gate start n.tile.coord (cur.path ++ [b])
          rw [htile] at hc ⊢
          rw [hc]
          exact hnewpath
        · show (cur.path ++ [b]).getLast? = some n.tile
          rw [htile]
          simp [List.getLast?_concat]
        · show (cur.path ++ [b]).length = cur.g + 1 + 1
          simp only [List.length_append, List.length_singleton]
          rw [hwfc.2.2.1]
        · show n.h = cubeDistance n.tile.coord goal
          exact (hwf n hn).2.2.2.1
        · show g.getTile n.tile.coord = some n.tile
          exact (hwf n hn).2.2.2.2.2
      · rw [if_neg hc] at hupd
        subst hupd
        exact hwf n hn
    · exact hwf n' (by simpa [relaxNeighbor, if_neg hcl, if_neg hgt, hfn, if_neg hlt]
        using hn')

theorem relax_disj (hdisj : ∀ n ∈ acc, n.tile.coord ∉ closed) :
    ∀ n' ∈ relaxNeighbor gate goal cur closed acc b, n'.tile.coord ∉ closed := by
  intro n' hn'
  by_cases hcl : b.coord ∈ closed
  · exact hdisj n' (by simpa [relaxNeighbor, if_pos hcl] using hn')
  by_cases hgt : gate b = false
  · exact hdisj n' (by simpa [relaxNeighbor, if_neg hcl, if_pos hgt] using hn')
  rcases hfn : findNode acc b.coord with _ | ex
  · simp only [relaxNeighbor, if_neg hcl, if_neg hgt, hfn] at hn'
    rcases List.mem_append.1 hn' with h | h
    · exact hdisj n' h
    · rw [List.mem_singleton] at h
      subst h
      exact hcl
  · by_cases hlt : cur.g + 1 < ex.g
    · simp only [relaxNeighbor, if_neg hcl, if_neg hgt, hfn, if_pos hlt] at hn'
      rcases List.mem_map.1 hn' with ⟨n, hn, hupd⟩
      by_cases hc : n.tile.coord = b.coord
      · rw [if_pos hc] at hupd
        subst hupd
        show n.tile.coord ∉ closed
        exact hdisj n hn
      · rw [if_neg hc] at hupd
        subst hupd
        exact hdisj n hn
    · exact hdisj n' (by simpa [relaxNeighbor, if_neg hcl, if_neg hgt, hfn, if_neg hlt]
        using hn')

theorem relax_presence (hclb : b.coord ∉ closed) (hgb : gate b = true) :
    ∃ n' ∈ relaxNeighbor gate goal cur closed acc b,
      n'.tile.coord = b.coord ∧ n'.g ≤ cur.g + 1 := by
  have hgt : ¬gate b = false := by rw [hgb]; simp
  rcases hfn : findNode acc b.coord with _ | ex
  · refine ⟨⟨b, cur.g + 1, cubeDistance b.coord goal,
      cur.g + 1 + cubeDistance b.coord goal, cur.path ++ [b]⟩, ?_, rfl, le_refl _⟩
    simp only [relaxNeighbor, if_neg hclb, if_neg hgt, hfn]
    exact List.mem_append_right _ (List.mem_singleton.2 rfl)
  · have hex := findNode_eq_some hfn
    by_cases hlt : cur.g + 1 < ex.g
    · refine ⟨⟨ex.tile, cur.g + 1, ex.h, cur.g + 1 + ex.h, cur.path ++ [b]⟩, ?_, hex.2,
        le_refl _⟩
      simp only [relaxNeighbor, if_neg hclb, if_neg hgt, hfn, if_pos hlt]
      have := List.mem_map_of_mem (fun m : PathNode =>
        if m.tile.coord = b.coord then
          (⟨m.tile, cur.g + 1, m.h, cur.g + 1 + m.h, cur.path ++ [b]⟩ : PathNode)
        else m) hex.1
      simpa [hex.2] using this
    · refine ⟨ex, ?_, hex.2, le_of_not_lt hlt⟩
      simpa [relaxNeighbor, if_neg hclb, if_neg hgt, hfn, if_neg hlt] using hex.1

end RelaxLemmas

/-! ### Preservation through the whole neighbor fold -/

section RelaxFold

variable {g : HexGrid} {gate : HexTile → Bool} {start goal : CubeCoord}
variable {cur : PathNode} {closed : List CubeCoord}

theorem relaxFold_nodup (bs : List HexTile) (acc : List PathNode)
    (hnd : (acc.map fun n => n.tile.coord).Nodup) :
    ((bs.foldl (relaxNeighbor gate goal cur closed) acc).map fun n => n.tile.coord).Nodup := by
  induction bs generalizing acc with
  | nil => exact hnd
  | cons b bs ih =>
    rw [List.foldl_cons]
    exact ih _ (relax_nodup hnd)

theorem relaxFold_wf (bs : List HexTile) (acc : List PathNode)
    (hwf : ∀ n ∈ acc, NodeWF g gate start goal n)
    (hwfc : NodeWF g gate start goal cur)
    (hbs : ∀ b ∈ bs, b ∈ g.getTraversableNeighbors cur.tile.coord) :
    ∀ n' ∈ bs.foldl (relaxNeighbor gate goal cur closed) acc,
      NodeWF g gate start goal n' := by
  induction bs generalizing acc with
  | nil => exact hwf
  | cons b bs ih =>
    rw [List.foldl_cons]
    exact ih _ (relax_wf hwf hwfc (hbs b (List.mem_cons_self b bs)))
      (fun b' hb' => hbs b' (List.mem_cons_of_mem b hb'))

theorem relaxFold_disj (bs : List HexTile) (acc : List PathNode)
    (hdisj : ∀ n ∈ acc, n.tile.coord ∉ closed) :
    ∀ n' ∈ bs.foldl (relaxNeighbor gate goal cur closed) acc, n'.tile.coord ∉ closed := by
  induction bs generalizing acc with
  | nil => exact hdisj
  | cons b bs ih =>
    rw [List.foldl_cons]
    exact ih _ (relax_disj hdisj)

theorem relaxFold_persist (bs : List HexTile) (acc : List PathNode)
    (hnd : (acc.map fun n => n.tile.coord).Nodup) :
    ∀ n ∈ acc, ∃ n' ∈ bs.foldl (relaxNeighbor gate goal cur closed) acc,
      n'.tile = n.tile ∧ n'.g ≤ n.g := by
  induction bs generalizing acc with
  | nil => exact fun n hn => ⟨n, hn, rfl, le_refl _⟩
  | cons b bs ih =>
    intro n hn
    rcases @relax_persist gate goal cur closed acc b hnd n hn with ⟨n₁, hn₁, ht₁, hg₁⟩
    rcases ih _ (relax_nodup hnd) n₁ hn₁ with ⟨n', hn', ht', hg'⟩
    rw [List.foldl_cons]
    exact ⟨n', hn', by rw [ht', ht₁], le_trans hg' hg₁⟩

theorem relaxFold_presence (bs : List HexTile) (acc : List PathNode)
    (hnd : (acc.map fun n => n.tile.coord).Nodup) {b : HexTile} (hb : b ∈ bs)
    (hclb : b.coord ∉ closed) (hgb : gate b = true) :
    ∃ n' ∈ bs.foldl (relaxNeighbor gate goal cur closed) acc,
      n'.tile.coord = b.coord ∧ n'.g ≤ cur.g + 1 := by
  induction bs generalizing acc with
  | nil => cases hb
  | cons b0 bs ih =>
    rw [List.foldl_cons]
    rcases List.mem_cons.1 hb with rfl | hb'
    · rcases @relax_presence gate goal cur closed acc _ hclb hgb
        with ⟨n₁, hn₁, hc₁, hg₁⟩
      rcases relaxFold_persist bs _ (relax_nodup hnd) n₁ hn₁ with ⟨n', hn', ht', hg'⟩
      exact ⟨n', hn', by rw [ht', hc₁], le_trans hg' hg₁⟩
    · exact ih _ (relax_nodup hnd) hb'

end RelaxFold

/-! ### Frontier and pop lemmas -/

theorem mem_of_getLast?_eq {α : Type} {l : List α} {a : α} (h : l.getLast? = some a) :
    a ∈ l := by
  have hmem : a ∈ l.getLast? := h
  rcases List.mem_getLast?_eq_getLast hmem with ⟨hne, heq⟩
  rw [heq]
  exact List.getLast_mem hne

section MainLemmas

variable {g : HexGrid} {gate : HexTile → Bool} {start goal : CubeCoord}
variable {openL : List PathNode} {closed : List CubeCoord}

/-- On every valid path from the start to a non-closed coordinate, the first
non-closed tile is covered by an open node whose g does not exceed its
position. -/
theorem frontier (inv : AStarInv g gate start goal openL closed) {z : CubeCoord}
    {q : List HexTile} (hq : IsPath g gate start z q) (hz : z ∉ closed) :
    ∃ pre y suf, q = pre ++ y :: suf ∧ y.coord ∉ closed ∧
      ∃ n ∈ openL, n.tile.coord = y.coord ∧ n.g ≤ pre.length := by
  rcases hq.2.1 with ⟨t, hlast, hco⟩
  have htm : t ∈ q := mem_of_getLast?_eq hlast
  rcases exists_first_open closed q ⟨t, htm, by rw [hco]; exact hz⟩
    with ⟨pre, y, suf, heq, hall, hy⟩
  refine ⟨pre, y, suf, heq, hy, ?_⟩
  rcases List.eq_nil_or_concat pre with rfl | ⟨init, a, hpre⟩
  · rcases hq.1 with ⟨t0, hgt0, hh⟩
    have hhy : q.head? = some y := by rw [heq]; rfl
    have hyt : y = t0 := by
      rw [hhy] at hh
      exact Option.some.inj hh
    have hyco : y.coord = start := by
      rw [hyt]
      exact (getTile_eq_some hgt0).2
    have hsnc : start ∉ closed := by
      rw [← hyco]
      exact hy
    rcases inv.startInv with hns | ⟨n, hn, hcoord, hg0⟩
    · exact absurd hns hsnc
    · exact ⟨n, hn, by rw [hcoord, hyco], by simp [hg0]⟩
  · rw [List.concat_eq_append] at hpre
    subst hpre
    have hlastpre : (init ++ [a]).getLast? = some a := List.getLast?_concat _
    have haclosed : a.coord ∈ closed :=
      hall a (List.mem_append_right _ (List.mem_singleton.2 rfl))
    rw [heq] at hq
    have hpath_pre : IsPath g gate start a.coord (init ++ [a]) :=
      isPath_prefix hq hlastpre
    have hreach : ReachN g gate start a.coord init.length :=
      ⟨init ++ [a], hpath_pre, by simp⟩
    have hstep : ValidStep g gate a y := chain_append_step hq.2.2 hlastpre
    rcases inv.closedSucc a.coord haclosed init.length hreach y hstep with hyc | ⟨n, hn, hnc, hng⟩
    · exact absurd hyc hy
    · refine ⟨n, hn, hnc, ?_⟩
      simp only [List.length_append, List.length_singleton]
      omega

/-- When the loop pops the open node with minimal f, that node's g is optimal:
any valid path from the start to its coordinate has at least g + 1 tiles. -/
theorem pop_optimal (inv : AStarInv g gate start goal openL closed) {cur : PathNode}
    (hsel : selectMin openL = some cur) :
    ∀ q, IsPath g gate start cur.tile.coord q → cur.g + 1 ≤ q.length := by
  intro q hq
  rcases selectMin_spec hsel with ⟨hcur, hmin⟩
  have hwfc := inv.wf cur hcur
  have hnc : cur.tile.coord ∉ closed := inv.disj cur hcur
  rcases frontier inv hq hnc with ⟨pre, y, suf, heq, _, n, hn, hnco, hng⟩
  have hwfn := inv.wf n hn
  rcases hq.2.1 with ⟨t, hlast, hco⟩
  have hch : List.Chain' (ValidStep g gate) (y :: suf) := by
    have h := hq.2.2
    rw [heq] at h
    exact (List.chain'_append.1 h).2.1
  have hlast' : (y :: suf).getLast? = some t := by
    rw [heq, List.getLast?_append_cons] at hlast
    exact hlast
  have hcons := @chain_cubeDistance _ _ goal suf y t hch hlast'
  have hfn : n.f = n.g + n.h := hwfn.2.2.2.2.1
  have hhn : n.h = cubeDistance y.coord goal := by
    rw [hwfn.2.2.2.1, hnco]
  have hfc : cur.f = cur.g + cur.h := hwfc.2.2.2.2.1
  have hhc : cur.h = cubeDistance cur.tile.coord goal := hwfc.2.2.2.1
  have hmin' := hmin n hn
  rw [hco] at hcons
  have hql : q.length = pre.length + suf.length + 1 := by
    rw [heq]
    simp only [List.length_append, List.length_cons]
    omega
  omega

/-- One iteration of the A* loop body preserves the invariant. -/
theorem step_preserves (inv : AStarInv g gate start goal openL closed) {cur : PathNode}
    (hsel : selectMin openL = some cur) (hgoal : cur.tile.coord ≠ goal) :
    AStarInv g gate start goal
      ((g.getTraversableNeighbors cur.tile.coord).foldl
        (relaxNeighbor gate goal cur (cur.tile.coord :: closed))
        (openL.filter (fun n => decide (¬n.tile.coord = cur.tile.coord))))
      (cur.tile.coord :: closed) := by
  rcases selectMin_spec hsel with ⟨hcur, _⟩
  have hwfc := inv.wf cur hcur
  set bs := g.getTraversableNeighbors cur.tile.coord with hbsdef
  set closed1 := cur.tile.coord :: closed with hclosed1def
  set open1 := openL.filter (fun n => decide (¬n.tile.coord = cur.tile.coord)) with hopen1def
  have hmem1 : ∀ n : PathNode, n ∈ open1 ↔ n ∈ openL ∧ n.tile.coord ≠ cur.tile.coord := by
    intro n
    rw [hopen1def, List.mem_filter]
    simp
  have hnd1 : (open1.map fun n => n.tile.coord).Nodup :=
    inv.openNodup.sublist ((List.filter_sublist openL).map fun n => n.tile.coord)
  have hdisj1 : ∀ n ∈ open1, n.tile.coord ∉ closed1 := by
    intro n hn
    rcases (hmem1 n).1 hn with ⟨hnl, hne⟩
    rw [hclosed1def]
    intro hc
    rcases List.mem_cons.1 hc with h | h
    · exact hne h
    · exact inv.disj n hnl h
  have hwf1 : ∀ n ∈ open1, NodeWF g gate start goal n := by
    intro n hn
    exact inv.wf n ((hmem1 n).1 hn).1
  refine ⟨relaxFold_nodup bs open1 hnd1, ?_, relaxFold_disj bs open1 hdisj1,
    relaxFold_wf bs open1 hwf1 hwfc (fun b hb => hb), ?_, ?_, ?_, ?_⟩
  · rw [hclosed1def]
    exact List.nodup_cons.2 ⟨inv.disj cur hcur, inv.closedNodup⟩
  · intro c hc
    rw [hclosed1def] at hc
    rcases List.mem_cons.1 hc with rfl | hcold
    · exact ⟨cur.tile, hwfc.2.2.2.2.2⟩
    · exact inv.closedGrid c hcold
  · rcases inv.startInv with h | ⟨n0, hn0, hc0, hg0⟩
    · exact Or.inl (by rw [hclosed1def]; exact List.mem_cons_of_mem _ h)
    · by_cases hsc : n0.tile.coord = cur.tile.coord
      · refine Or.inl ?_
        rw [hclosed1def, ← hc0, hsc]
        exact List.mem_cons_self _ _
      · right
        have hn01 : n0 ∈ open1 := (hmem1 n0).2 ⟨hn0, hsc⟩
        rcases relaxFold_persist bs open1 hnd1 n0 hn01 with ⟨n', hn', ht', hg'⟩
        refine ⟨n', hn', ?_, ?_⟩
        · rw [ht']
          exact hc0
        · omega
  · intro c hc m hreach b hstep
    rw [hclosed1def] at hc
    rcases List.mem_cons.1 hc with rfl | hcold
    · rcases hreach with ⟨p, hp, hlen⟩
      have hcurg : cur.g ≤ m := by
        have := pop_optimal inv hsel p hp
        omega
      by_cases hbc : b.coord ∈ closed1
      · exact Or.inl hbc
      · right
        rcases relaxFold_presence bs open1 hnd1 hstep.1 hbc hstep.2
          with ⟨n', hn', hc', hg'⟩
        exact ⟨n', hn', hc', by omega⟩
    · rcases inv.closedSucc c hcold m hreach b hstep with hbc | ⟨n, hn, hnc, hng⟩
      · exact Or.inl (by rw [hclosed1def]; exact List.mem_cons_of_mem _ hbc)
      · by_cases hbcur : b.coord = cur.tile.coord
        · refine Or.inl ?_
          rw [hclosed1def, hbcur]
          exact List.mem_cons_self _ _
        · right
          have hn1 : n ∈ open1 := (hmem1 n).2 ⟨hn, by rw [hnc]; exact hbcur⟩
          rcases relaxFold_persist bs open1 hnd1 n hn1 with ⟨n', hn', ht', hg'⟩
          refine ⟨n', hn', ?_, by omega⟩
          rw [ht']
          exact hnc
  · rw [hclosed1def]
    intro hg
    rcases List.mem_cons.1 hg with h | h
    · exact hgoal h.symm
    · exact inv.goalOpen h

/-- Main loop correctness: under the invariant with enough fuel, a returned
path is a valid path of minimal length, and `none` means no valid path. -/
theorem astarLoop_correct :
    ∀ (fuel : Nat) (openL : List PathNode) (closed : List CubeCoord),
      AStarInv g gate start goal openL closed →
      g.size + 1 ≤ fuel + closed.length →
      (∀ p, astarLoop g gate goal fuel openL closed = some p →
        IsPath g gate start goal p ∧
          ∀ q, IsPath g gate start goal q → p.length ≤ q.length) ∧
      (astarLoop g gate goal fuel openL closed = none →
        ∀ q, ¬IsPath g gate start goal q) := by
  intro fuel
  induction fuel with
  | zero =>
    intro openL closed inv hcount
    have hle := closed_length_le inv.closedNodup inv.closedGrid
    have hfalse : False := by omega
    exact hfalse.elim
  | succ fuel ih =>
    intro openL closed inv hcount
    rcases hsel : selectMin openL with _ | cur
    · have hopen : openL = [] := selectMin_none hsel
      constructor
      · intro p hp
        simp only [astarLoop, hsel] at hp
        cases hp
      · intro _ q hq
        rcases frontier inv hq inv.goalOpen with ⟨pre, y, suf, heq, hy, n, hn, _, _⟩
        rw [hopen] at hn
        cases hn
    · rcases selectMin_spec hsel with ⟨hcur, _⟩
      by_cases hgoal : cur.tile.coord = goal
      · constructor
        · intro p hp
          simp only [astarLoop, hsel, if_pos hgoal] at hp
          have hwfc := inv.wf cur hcur
          have hpath : IsPath g gate start goal cur.path := by
            have h := hwfc.1
            rw [hgoal] at h
            exact h
          have hlen : cur.path.length = cur.g + 1 := hwfc.2.2.1
          have hp' := Option.some.inj hp
          subst hp'
          refine ⟨hpath, ?_⟩
          intro q hq
          have hq' : IsPath g gate start cur.tile.coord q := by
            rw [hgoal]
            exact hq
          have := pop_optimal inv hsel q hq'
          omega
        · intro hnone
          simp only [astarLoop, hsel, if_pos hgoal] at hnone
          cases hnone
      · have inv' := step_preserves inv hsel hgoal
        have hcount' : g.size + 1 ≤ fuel + (cur.tile.coord :: closed).length := by
          simp only [List.length_cons]
          omega
        have hrec := ih _ _ inv' hcount'
        constructor
        · intro p hp
          simp only [astarLoop, hsel, if_neg hgoal] at hp
          exact hrec.1 p hp
        · intro hnone
          simp only [astarLoop, hsel, if_neg hgoal] at hnone
          exact hrec.2 hnone

end MainLemmas

/-- C1: for every grid and every start/goal coordinate pair, HexPathfinder.findPath
returns null when the goal tile does not exist, is not traversable, is not
unlocked (when an unlock gate is supplied), or is unreachable from the start
through traversable (and unlocked, when gated) tiles; otherwise it returns a
path that begins with the start tile, ends at the goal, steps only between
adjacent traversable (and unlocked, when gated) tiles, and has minimal length
under uniform step cost 1; when start equals goal the result is the
single-element path containing only the start tile. -/
theorem C1_findPath_correct (g : HexGrid) (start goal : CubeCoord)
    (unlock? : Option UnlockSystem) :
    (findPath g start goal unlock? = none ↔
      (g.getTile goal = none ∨
        (∃ t, g.getTile goal = some t ∧ t.isTraversable = false) ∨
        (∃ t, g.getTile goal = some t ∧ unlockGate unlock? t = false) ∨
        ∀ q, ¬IsPath g (unlockGate unlock?) start goal q)) ∧
    (∀ p, findPath g start goal unlock? = some p →
      IsPath g (unlockGate unlock?) start goal p ∧
      (∀ q, IsPath g (unlockGate unlock?) start goal q → p.length ≤ q.length) ∧
      (start = goal → ∃ t, g.getTile start = some t ∧ p = [t])) := by
  rcases hst : g.getTile start with _ | startTile
  · rcases hgl : g.getTile goal with _ | goalTile
    · have hfp : findPath g start goal unlock? = none := by
        simp [findPath, hst, hgl]
      refine ⟨⟨fun _ => Or.inl rfl, fun _ => hfp⟩, ?_⟩
      intro p hp
      rw [hfp] at hp
      cases hp
    · have hfp : findPath g start goal unlock? = none := by
        simp [findPath, hst, hgl]
      refine ⟨⟨fun _ => ?_, fun _ => hfp⟩, ?_⟩
      · refine Or.inr (Or.inr (Or.inr ?_))
        intro q hq
        rcases hq.1 with ⟨t, hst', _⟩
        rw [hst] at hst'
        cases hst'
      · intro p hp
        rw [hfp] at hp
        cases hp
  · rcases hgl : g.getTile goal with _ | goalTile
    · have hfp : findPath g start goal unlock? = none := by
        simp [findPath, hst, hgl]
      refine ⟨⟨fun _ => Or.inl rfl, fun _ => hfp⟩, ?_⟩
      intro p hp
      rw [hfp] at hp
      cases hp
    · have hscoord : startTile.coord = start := (getTile_eq_some hst).2
      have hgcoord : goalTile.coord = goal := (getTile_eq_some hgl).2
      by_cases htr : goalTile.isTraversable = false
      · have hfp : findPath g start goal unlock? = none := by
          simp [findPath, hst, hgl, htr]
        refine ⟨⟨fun _ => Or.inr (Or.inl ⟨goalTile, rfl, htr⟩), fun _ => hfp⟩, ?_⟩
        intro p hp
        rw [hfp] at hp
        cases hp
      · by_cases hgate : unlockGate unlock? goalTile = false
        · have hfp : findPath g start goal unlock? = none := by
            simp only [findPath, hst, hgl, if_neg htr, if_pos hgate]
          refine ⟨⟨fun _ => Or.inr (Or.inr (Or.inl ⟨goalTile, rfl, hgate⟩)),
            fun _ => hfp⟩, ?_⟩
          intro p hp
          rw [hfp] at hp
          cases hp
        · have hgate' : unlockGate unlock? goalTile = true := by
            cases h : unlockGate unlock? goalTile
            · exact absurd h hgate
            · rfl
          by_cases heq : startTile.coord = goalTile.coord
          · have hfp : findPath g start goal unlock? = some [startTile] := by
              simp only [findPath, hst, hgl, if_neg htr, if_neg hgate, if_pos heq]
            have hsg : start = goal := by
              rw [← hscoord, ← hgcoord]
              exact heq
            have hpath0 : IsPath g (unlockGate unlock?) start goal [startTile] := by
              refine ⟨⟨startTile, hst, rfl⟩, ⟨startTile, rfl, ?_⟩, by simp⟩
              rw [hscoord, hsg]
            constructor
            · constructor
              · intro h
                rw [hfp] at h
                cases h
              · intro hrhs
                exfalso
                rcases hrhs with h | ⟨t, hgt, htf⟩ | ⟨t, hgt, hgf⟩ | hall
                · cases h
                · have := Option.some.inj hgt
                  subst this
                  exact htr htf
                · have := Option.some.inj hgt
                  subst this
                  rw [hgate'] at hgf
                  cases hgf
                · exact hall _ hpath0
            · intro p hp
              rw [hfp] at hp
              have hp' := Option.some.inj hp
              subst hp'
              exact ⟨hpath0, fun q hq => hq.one_le_length, fun _ => ⟨startTile, rfl, rfl⟩⟩
          · have hfp : findPath g start goal unlock? =
                astarLoop g (unlockGate unlock?) goal (g.size + 1)
                  [⟨startTile, 0, cubeDistance start goal, cubeDistance start goal,
                    [startTile]⟩] [] := by
              simp only [findPath, hst, hgl, if_neg htr, if_neg hgate, if_neg heq]
            have hsgne : start ≠ goal := by
              intro h
              apply heq
              rw [hscoord, hgcoord, h]
            have inv0 : AStarInv g (unlockGate unlock?) start goal
                [⟨startTile, 0, cubeDistance start goal, cubeDistance start goal,
                  [startTile]⟩] [] := by
              refine ⟨by simp, by simp, by simp, ?_, by simp, ?_, by simp, by simp⟩
              · intro n hn
                rw [List.mem_singleton] at hn
                subst hn
                refine ⟨?_, rfl, rfl, ?_, ?_, ?_⟩
                · show IsPath g (unlockGate unlock?) start startTile.coord [startTile]
                  rw [hscoord]
                  exact isPath_singleton hst
                · show cubeDistance start goal = cubeDistance startTile.coord goal
                  rw [hscoord]
                · show cubeDistance start goal = 0 + cubeDistance start goal
                  simp
                · show g.getTile startTile.coord = some startTile
                  rw [hscoord]
                  exact hst
              · refine Or.inr ⟨_, List.mem_singleton.2 rfl, hscoord, rfl⟩
            have hml := astarLoop_correct (g.size + 1)
              [⟨startTile, 0, cubeDistance start goal, cubeDistance start goal,
                [startTile]⟩] [] inv0 (by simp)
            constructor
            · constructor
              · intro hnone
                rw [hfp] at hnone
                exact Or.inr (Or.inr (Or.inr (hml.2 hnone)))
              · intro hrhs
                rw [hfp]
                rcases hrhs with h | ⟨t, hgt, htf⟩ | ⟨t, hgt, hgf⟩ | hall
                · cases h
                · have := Option.some.inj hgt
                  subst this
                  exact absurd htf htr
                · have := Option.some.inj hgt
                  subst this
                  rw [hgate'] at hgf
                  cases hgf
                · rcases hres : astarLoop g (unlockGate unlock?) goal (g.size + 1)
                      [⟨startTile, 0, cubeDistance start goal, cubeDistance start goal,
                        [startTile]⟩] [] with _ | p
                  · rfl
                  · exact absurd (hml.1 p hres).1 (hall p)
            · intro p hp
              rw [hfp] at hp
              have h := hml.1 p hp
              exact ⟨h.1, h.2, fun hsg => absurd hsg hsgne⟩

/-! ### Battle/party types (shared/systems/BattleTypes.ts) -/

inductive BattleTimerState where
  | battle
  | result
deriving DecidableEq

inductive BattleResult where
  | victory
  | defeat
deriving DecidableEq

inductive PartyState where
  | idle
  | moving
  | in_battle
deriving DecidableEq

inductive BattleVisual where
  | none
  | fighting
  | victory
  | defeat
deriving DecidableEq

/-! ### Server party (server/game/ServerParty.ts)

The grid (through the pathfinder the class owns) is passed to setDestination
explicitly; the callback properties (`onStateChange`, `onTileReached`,
`onDestinationReached`) are notifications and carry no state, so the state
type holds the four data fields. -/

structure ServerParty where
  currentTile : HexTile
  targetTile : Option HexTile
  movementQueue : List HexTile
  state : PartyState
deriving DecidableEq

/-- The ServerParty constructor: current tile set, no target, empty queue,
state 'idle'. -/
def ServerParty.create (startTile : HexTile) : ServerParty :=
  ⟨startTile, none, [], .idle⟩

/-- ServerParty.restore: constructor then patch target and queue (state stays
'idle'). -/
def ServerParty.restore (currentTile : HexTile) (targetTile : Option HexTile)
    (movementQueue : List HexTile) : ServerParty :=
  ⟨currentTile, targetTile, movementQueue, .idle⟩

/-- Getter hasDestination: queue length > 0. -/
def ServerParty.hasDestination (p : ServerParty) : Bool :=
  decide (p.movementQueue.length > 0)

/-- Getter nextTile: the queue's first element or null. -/
def ServerParty.nextTile (p : ServerParty) : Option HexTile :=
  p.movementQueue.head?

/-- ServerParty.setDestination: path from the in-flight target if any, else
from the current tile; fails without mutation on a non-traversable
destination, a null path, or a path of length ≤ 1. -/
def ServerParty.setDestination (g : HexGrid) (p : ServerParty) (destinationTile : HexTile) :
    ServerParty × Bool :=
  if destinationTile.isTraversable = false then (p, false)
  else
    match findPath g (p.targetTile.getD p.currentTile).coord destinationTile.coord none with
    | Option.none => (p, false)
    | some path =>
      if path.length ≤ 1 then (p, false)
      else ({ p with movementQueue := path.drop 1 }, true)

/-- ServerParty.clearDestination. -/
def ServerParty.clearDestination (p : ServerParty) : ServerParty :=
  { p with movementQueue := [] }

/-- ServerParty.moveToNextTile: pop the queue head, make it current, clear the
target; returns whether movement occurred. -/
def ServerParty.moveToNextTile (p : ServerParty) : ServerParty × Bool :=
  match p.movementQueue with
  | [] => (p, false)
  | nextTile :: rest =>
    ({ p with currentTile := nextTile, targetTile := Option.none, movementQueue := rest },
      true)

/-- ServerParty.enterBattle (setState('in_battle')). -/
def ServerParty.enterBattle (p : ServerParty) : ServerParty :=
  { p with state := .in_battle }

/-- ServerParty.exitBattle: back to 'idle' only from 'in_battle'. -/
def ServerParty.exitBattle (p : ServerParty) : ServerParty :=
  if p.state = .in_battle then { p with state := .idle } else p

/-- The ServerParty operations the server code invokes. -/
inductive PartyOp where
  | setDestination (g : HexGrid) (dest : HexTile)
  | clearDestination
  | moveToNextTile
  | enterBattle
  | exitBattle

def applyPartyOp (p : ServerParty) : PartyOp → ServerParty
  | .setDestination g dest => (p.setDestination g dest).1
  | .clearDestination => p.clearDestination
  | .moveToNextTile => (p.moveToNextTile).1
  | .enterBattle => p.enterBattle
  | .exitBattle => p.exitBattle

/-- Case characterization of setDestination, one disjunct per source branch. -/
theorem setDestination_eq (g : HexGrid) (p : ServerParty) (dest : HexTile) :
    (dest.isTraversable = false ∧ p.setDestination g dest = (p, false)) ∨
    (¬dest.isTraversable = false ∧
      findPath g (p.targetTile.getD p.currentTile).coord dest.coord none = none ∧
      p.setDestination g dest = (p, false)) ∨
    (∃ path, ¬dest.isTraversable = false ∧
      findPath g (p.targetTile.getD p.currentTile).coord dest.coord none = some path ∧
      path.length ≤ 1 ∧ p.setDestination g dest = (p, false)) ∨
    (∃ path, ¬dest.isTraversable = false ∧
      findPath g (p.targetTile.getD p.currentTile).coord dest.coord none = some path ∧
      ¬path.length ≤ 1 ∧
      p.setDestination g dest = ({ p with movementQueue := path.drop 1 }, true)) := by
  by_cases htr : dest.isTraversable = false
  · exact Or.inl ⟨htr, by simp only [ServerParty.setDestination, if_pos htr]⟩
  · rcases hfp : findPath g (p.targetTile.getD p.currentTile).coord dest.coord none
      with _ | path
    · exact Or.inr (Or.inl ⟨htr, rfl,
        by simp only [ServerParty.setDestination, if_neg htr, hfp]⟩)
    · by_cases hlen : path.length ≤ 1
      · exact Or.inr (Or.inr (Or.inl ⟨path, htr, rfl, hlen,
          by simp only [ServerParty.setDestination, if_neg htr, hfp, if_pos hlen]⟩))
      · exact Or.inr (Or.inr (Or.inr ⟨path, htr, rfl, hlen,
          by simp only [ServerParty.setDestination, if_neg htr, hfp, if_neg hlen]⟩))

/-- C6: ServerParty.setDestination(tile) returns false, and leaves the current
tile, target tile, and movement queue completely unchanged, iff the
destination is not traversable, or no path exists from the search origin, or
the found path has length ≤ 1 (already there); otherwise it returns true and
sets the movement queue to the computed path minus its first element, where
the search origin is the in-flight target tile if one is present and the
current tile otherwise. -/
theorem C6_setDestination_spec (g : HexGrid) (p : ServerParty) (dest : HexTile) :
    ((p.setDestination g dest).2 = false ↔
      (dest.isTraversable = false ∨
        findPath g (p.targetTile.getD p.currentTile).coord dest.coord none = none ∨
        ∃ path, findPath g (p.targetTile.getD p.currentTile).coord dest.coord none =
            some path ∧ path.length ≤ 1)) ∧
    ((p.setDestination g dest).2 = false → (p.setDestination g dest).1 = p) ∧
    ((p.setDestination g dest).2 = true →
      ∃ path, findPath g (p.targetTile.getD p.currentTile).coord dest.coord none =
          some path ∧ 1 < path.length ∧
        (p.setDestination g dest).1 =
          { p with movementQueue := path.drop 1 } ∧
        (p.setDestination g dest).1.currentTile = p.currentTile ∧
        (p.setDestination g dest).1.targetTile = p.targetTile) := by
  rcases setDestination_eq g p dest with ⟨htr, heq⟩ | ⟨htr, hfp, heq⟩ |
    ⟨path, htr, hfp, hlen, heq⟩ | ⟨path, htr, hfp, hlen, heq⟩
  · rw [heq]
    refine ⟨⟨fun _ => Or.inl htr, fun _ => rfl⟩, fun _ => rfl, ?_⟩
    intro h
    cases h
  · rw [heq]
    refine ⟨⟨fun _ => Or.inr (Or.inl hfp), fun _ => rfl⟩, fun _ => rfl, ?_⟩
    intro h
    cases h
  · rw [heq]
    refine ⟨⟨fun _ => Or.inr (Or.inr ⟨path, hfp, hlen⟩), fun _ => rfl⟩,
      fun _ => rfl, ?_⟩
    intro h
    cases h
  · rw [heq]
    refine ⟨⟨?_, ?_⟩, ?_, ?_⟩
    · intro h
      cases h
    · rintro (h | h | ⟨path', hpath', hlen'⟩)
      · exact absurd h htr
      · rw [hfp] at h
        cases h
      · rw [hfp] at hpath'
        have := Option.some.inj hpath'
        subst this
        exact absurd hlen' hlen
    · intro h
      cases h
    · intro _
      exact ⟨path, hfp, by omega, rfl, rfl, rfl⟩

/-- C10: on the server, the party's movement state only ever alternates
between 'idle' and 'in_battle': enterBattle is the sole transition into
'in_battle', exitBattle transitions back to 'idle' only from 'in_battle', and
no server operation ever sets the state to 'moving', even though 'moving' is a
declared member of the PartyState type carried on the wire. -/
theorem C10_party_state_machine :
    (∀ (p : ServerParty) (op : PartyOp),
      (applyPartyOp p op).state = .in_battle → op = .enterBattle ∨ p.state = .in_battle) ∧
    (∀ p : ServerParty, p.enterBattle.state = .in_battle) ∧
    (∀ p : ServerParty, p.state = .in_battle → p.exitBattle.state = .idle) ∧
    (∀ p : ServerParty, p.state ≠ .in_battle → p.exitBattle = p) ∧
    (∀ (p : ServerParty) (op : PartyOp),
      p.state ≠ .moving → (applyPartyOp p op).state ≠ .moving) ∧
    (∀ (init : ServerParty) (ops : List PartyOp),
      init.state ≠ .moving → (ops.foldl applyPartyOp init).state ≠ .moving) ∧
    (∀ t, (ServerParty.create t).state = .idle) ∧
    (∀ ct tt q, (ServerParty.restore ct tt q).state = .idle) := by
  have hframe : ∀ (p : ServerParty) (op : PartyOp),
      (applyPartyOp p op).state = p.state ∨
        (op = .enterBattle ∧ (applyPartyOp p op).state = .in_battle) ∨
        (op = .exitBattle ∧ p.state = .in_battle ∧ (applyPartyOp p op).state = .idle) := by
    intro p op
    cases op with
    | setDestination g dest =>
      left
      show (p.setDestination g dest).1.state = p.state
      rcases setDestination_eq g p dest with ⟨_, heq⟩ | ⟨_, _, heq⟩ |
        ⟨path, _, _, _, heq⟩ | ⟨path, _, _, _, heq⟩ <;> rw [heq]
    | clearDestination => exact Or.inl rfl
    | moveToNextTile =>
      left
      simp only [applyPartyOp, ServerParty.moveToNextTile]
      rcases p.movementQueue with _ | ⟨t, rest⟩
      · rfl
      · rfl
    | enterBattle => exact Or.inr (Or.inl ⟨rfl, rfl⟩)
    | exitBattle =>
      by_cases hb : p.state = .in_battle
      · exact Or.inr (Or.inr ⟨rfl, hb, by simp [applyPartyOp, ServerParty.exitBattle, hb]⟩)
      · left
        simp [applyPartyOp, ServerParty.exitBattle, hb]
  have hnm : ∀ (p : ServerParty) (op : PartyOp),
      p.state ≠ .moving → (applyPartyOp p op).state ≠ .moving := by
    intro p op hp
    rcases hframe p op with h | ⟨_, h⟩ | ⟨_, _, h⟩
    · rw [h]; exact hp
    · rw [h]; intro hc; cases hc
    · rw [h]; intro hc; cases hc
  refine ⟨?_, fun p => rfl, ?_, ?_, hnm, ?_, fun t => rfl, fun ct tt q => rfl⟩
  · intro p op hin
    rcases hframe p op with h | ⟨hop, _⟩ | ⟨_, hb, h⟩
    · right; rw [← h]; exact hin
    · left; exact hop
    · rw [h] at hin; cases hin
  · intro p hb
    simp [ServerParty.exitBattle, hb]
  · intro p hb
    simp [ServerParty.exitBattle, hb]
  · intro init ops hinit
    induction ops generalizing init with
    | nil => exact hinit
    | cons op rest ih =>
      rw [List.foldl_cons]
      exact ih _ (hnm init op hinit)

/-! ### Player session state (server/game/PlayerSession.ts / ServerParty.ts)

One identity's session aggregate: party, unlock system, bounded combat log and
battle counter. The ServerBattleTimer's callbacks mutate exactly this state;
broadcasts carry no state and are modelled by the notification-order trace
further below. -/

inductive CombatLogType where
  | battle
  | victory
  | defeat
  | move
  | unlock
deriving DecidableEq

structure CombatLogEntry where
  text : String
  type : CombatLogType
deriving DecidableEq

def MAX_LOG_ENTRIES : Nat := 100

def MAX_SAVE_LOG_ENTRIES : Nat := 1000

structure PlayerSessionState where
  username : String
  party : ServerParty
  unlockSystem : UnlockSystem
  combatLog : List CombatLogEntry
  battleCount : Nat
deriving DecidableEq

/-- PlayerSession.addLogEntry: push, then evict the oldest entry while over
the 100-entry cap. -/
def addLogEntry (s : PlayerSessionState) (text : String) (ty : CombatLogType) :
    PlayerSessionState :=
  let log := s.combatLog ++ [⟨text, ty⟩]
  { s with combatLog := if MAX_LOG_ENTRIES < log.length then log.drop 1 else log }

/-- The canMoveToNextTile callback PlayerSession passes to the battle timer:
the next queued tile exists and is unlocked. -/
def canMoveToNextTile (s : PlayerSessionState) : Bool :=
  match s.party.nextTile with
  | some t => s.unlockSystem.isUnlocked t
  | Option.none => false

/-- ServerBattleTimer.triggerBattle with PlayerSession's onBattleStart:
enterBattle, increment the battle counter, log the battle-begins entry. -/
def triggerBattleStep (s : PlayerSessionState) : PlayerSessionState :=
  let s1 : PlayerSessionState :=
    { s with party := s.party.enterBattle, battleCount := s.battleCount + 1 }
  addLogEntry s1 ("Battle #" ++ toString s1.battleCount ++ " begins!") .battle

/-- PlayerSession's onBattleEnd callback: log the outcome; on victory unlock
the tiles adjacent to the party's current tile and log any newly unlocked
count. -/
def battleEndLogs (g : HexGrid) (result : BattleResult) (s2 : PlayerSessionState) :
    PlayerSessionState :=
  match result with
  | .victory =>
    let s3 := addLogEntry s2 "Victory!" .victory
    let res := s3.unlockSystem.unlockAdjacentTiles g s3.party.currentTile
    let s4 : PlayerSessionState := { s3 with unlockSystem := res.1 }
    if 0 < res.2.length then
      addLogEntry s4
        (toString res.2.length ++ " new tile" ++ (if 1 < res.2.length then "s" else "")
          ++ " unlocked!") .unlock
    else s4
  | .defeat => addLogEntry s2 "Defeat..." .defeat

/-- ServerBattleTimer.showBattleResult with PlayerSession's onBattleEnd:
exitBattle; movement is allowed iff a destination is queued and (victory or
the next tile is unlocked); if allowed, move one step during the result
window; then the battle-end handling runs. -/
def showBattleResultStep (g : HexGrid) (result : BattleResult) (s : PlayerSessionState) :
    PlayerSessionState :=
  let party1 := s.party.exitBattle
  let canMove := party1.hasDestination &&
    (decide (result = .victory) || canMoveToNextTile { s with party := party1 })
  let party2 := if canMove = true then (party1.moveToNextTile).1 else party1
  battleEndLogs g result { s with party := party2 }

/-- One full battle cycle (triggerBattle through showBattleResult; the
resolveBattle step only clears the visual and re-enters battle). -/
def runBattleCycle (g : HexGrid) (result : BattleResult) (s : PlayerSessionState) :
    PlayerSessionState :=
  showBattleResultStep g result (triggerBattleStep s)

/-- The movement-eligibility policy of the cycle, evaluated on the session. -/
def movementAllowed (result : BattleResult) (s : PlayerSessionState) : Bool :=
  s.party.hasDestination && (decide (result = .victory) || canMoveToNextTile s)

theorem addLogEntry_party (s : PlayerSessionState) (text : String) (ty : CombatLogType) :
    (addLogEntry s text ty).party = s.party := rfl

theorem addLogEntry_unlock (s : PlayerSessionState) (text : String) (ty : CombatLogType) :
    (addLogEntry s text ty).unlockSystem = s.unlockSystem := rfl

theorem battleEndLogs_party (g : HexGrid) (result : BattleResult) (s2 : PlayerSessionState) :
    (battleEndLogs g result s2).party = s2.party := by
  rcases result with _ | _
  · simp only [battleEndLogs]
    split
    · rfl
    · rfl
  · rfl

theorem battleEndLogs_unlock (g : HexGrid) (result : BattleResult) (s2 : PlayerSessionState) :
    (battleEndLogs g result s2).unlockSystem =
      (match result with
        | .victory => (s2.unlockSystem.unlockAdjacentTiles g s2.party.currentTile).1
        | .defeat => s2.unlockSystem) := by
  rcases result with _ | _
  · simp only [battleEndLogs]
    split
    · rfl
    · rfl
  · rfl

/-- The party after one cycle: state reset to idle by exitBattle, and one
queued step popped exactly when movement is allowed. -/
theorem cycle_party (g : HexGrid) (result : BattleResult) (s : PlayerSessionState) :
    (runBattleCycle g result s).party =
      (if movementAllowed result s = true
        then (({ s.party with state := PartyState.idle } : ServerParty).moveToNextTile).1
        else { s.party with state := PartyState.idle }) := by
  show (battleEndLogs g result _).party = _
  rw [battleEndLogs_party]
  rfl

/-- C2: in every battle cycle, the party's position advances by exactly one
queued step iff the party has a queued destination and (the cycle's drawn
outcome is victory, or the next queued tile is already unlocked); given a
queued destination whose next tile is not yet unlocked, a defeat outcome
leaves the position unchanged over the whole cycle, while a victory outcome
advances it regardless of prior unlock state. -/
theorem C2_cycle_movement (g : HexGrid) (result : BattleResult) (s : PlayerSessionState) :
    (movementAllowed result s = true ↔
      s.party.movementQueue ≠ [] ∧
        (result = .victory ∨
          ∃ t, s.party.movementQueue.head? = some t ∧
            s.unlockSystem.isUnlocked t = true)) ∧
    (movementAllowed result s = true →
      ∃ next rest, s.party.movementQueue = next :: rest ∧
        (runBattleCycle g result s).party.currentTile = next ∧
        (runBattleCycle g result s).party.movementQueue = rest ∧
        (runBattleCycle g result s).party.targetTile = none) ∧
    (movementAllowed result s = false →
      (runBattleCycle g result s).party.currentTile = s.party.currentTile ∧
      (runBattleCycle g result s).party.movementQueue = s.party.movementQueue ∧
      (runBattleCycle g result s).party.targetTile = s.party.targetTile) ∧
    (∀ t, s.party.movementQueue.head? = some t →
      s.unlockSystem.isUnlocked t = false → result = .defeat →
      (runBattleCycle g result s).party.currentTile = s.party.currentTile) ∧
    (s.party.movementQueue ≠ [] → result = .victory →
      ∃ next rest, s.party.movementQueue = next :: rest ∧
        (runBattleCycle g result s).party.currentTile = next ∧
        (runBattleCycle g result s).party.movementQueue = rest) := by
  have hiff : movementAllowed result s = true ↔
      s.party.movementQueue ≠ [] ∧
        (result = .victory ∨
          ∃ t, s.party.movementQueue.head? = some t ∧
            s.unlockSystem.isUnlocked t = true) := by
    unfold movementAllowed canMoveToNextTile ServerParty.hasDestination ServerParty.nextTile
    rcases hq : s.party.movementQueue with _ | ⟨t0, rest⟩
    · simp
    · rcases result with _ | _
      · simp
      · rcases hu : s.unlockSystem.isUnlocked t0 with _ | _
        · simp [hu]
        · simp [hu]
  have hadv : movementAllowed result s = true →
      ∃ next rest, s.party.movementQueue = next :: rest ∧
        (runBattleCycle g result s).party.currentTile = next ∧
        (runBattleCycle g result s).party.movementQueue = rest ∧
        (runBattleCycle g result s).party.targetTile = none := by
    intro hma
    rcases hq : s.party.movementQueue with _ | ⟨next, rest⟩
    · exact absurd hq (hiff.1 hma).1
    · refine ⟨next, rest, rfl, ?_, ?_, ?_⟩ <;>
        · rw [cycle_party, if_pos hma]
          simp [ServerParty.moveToNextTile, hq]
  have hstay : movementAllowed result s = false →
      (runBattleCycle g result s).party.currentTile = s.party.currentTile ∧
      (runBattleCycle g result s).party.movementQueue = s.party.movementQueue ∧
      (runBattleCycle g result s).party.targetTile = s.party.targetTile := by
    intro hma
    have hne : ¬movementAllowed result s = true := by
      rw [hma]
      simp
    rw [cycle_party, if_neg hne]
    exact ⟨rfl, rfl, rfl⟩
  refine ⟨hiff, hadv, hstay, ?_, ?_⟩
  · intro t ht hu hres
    subst hres
    have hma : movementAllowed BattleResult.defeat s = false := by
      unfold movementAllowed canMoveToNextTile ServerParty.nextTile
      rw [ht]
      simp [hu]
    exact (hstay hma).1
  · intro hne hres
    subst hres
    have hma : movementAllowed BattleResult.victory s = true :=
      hiff.2 ⟨hne, Or.inl rfl⟩
    rcases hadv hma with ⟨next, rest, h1, h2, h3, _⟩
    exact ⟨next, rest, h1, h2, h3⟩

/-- The unlock system after one cycle: on victory, the unlockAdjacentTiles
result at the (possibly just-moved) current tile; on defeat, unchanged. -/
theorem runBattleCycle_unlock (g : HexGrid) (result : BattleResult) (s : PlayerSessionState) :
    (runBattleCycle g result s).unlockSystem =
      (match result with
        | .victory => (s.unlockSystem.unlockAdjacentTiles g
            (if movementAllowed result s = true
              then (({ s.party with state := PartyState.idle } : ServerParty).moveToNextTile).1
              else { s.party with state := PartyState.idle }).currentTile).1
        | .defeat => s.unlockSystem) := by
  cases result with
  | victory =>
    show (battleEndLogs g BattleResult.victory _).unlockSystem = _
    rw [battleEndLogs_unlock]
    rfl
  | defeat =>
    show (battleEndLogs g BattleResult.defeat _).unlockSystem = _
    rw [battleEndLogs_unlock]
    rfl

/-! ### Session operations (PlayerSession.ts) -/

/-- PlayerSession.handleMove: resolve the tile from offset coordinates; fail
on a missing or non-traversable tile; otherwise delegate to setDestination. -/
def handleMove (g : HexGrid) (s : PlayerSessionState) (col row : Int) :
    PlayerSessionState × Bool :=
  match g.getTile (offsetToCube col row) with
  | Option.none => (s, false)
  | some tile =>
    if tile.isTraversable = false then (s, false)
    else
      ({ s with party := (s.party.setDestination g tile).1 },
        (s.party.setDestination g tile).2)

/-- The operations the server invokes on one session's state. -/
inductive SessionOp where
  | handleMove (col row : Int)
  | battleCycle (result : BattleResult)
  | logEntry (text : String) (ty : CombatLogType)
  | requestState

def applySessionOp (g : HexGrid) (s : PlayerSessionState) : SessionOp → PlayerSessionState
  | .handleMove col row => (handleMove g s col row).1
  | .battleCycle result => runBattleCycle g result s
  | .logEntry text ty => addLogEntry s text ty
  | .requestState => s

/-- C5: unlockAdjacentTiles(t) adds to the unlocked set exactly the
traversable neighbors of t that were not already unlocked and returns exactly
that newly-unlocked set (empty if nothing new); under any sequence of calls
the unlocked set never shrinks, and calling it twice in succession on the
same tile with no intervening growth returns an empty delta the second time;
no session operation other than this and the construction-time seeding (start
tile plus its traversable neighbors) grows the set. -/
theorem C5_unlock_system (g : HexGrid) :
    (∀ (u : UnlockSystem) (t x : HexTile),
      x ∈ (u.unlockAdjacentTiles g t).2 ↔
        x ∈ g.getAllNeighbors t.coord ∧ x.isTraversable = true ∧
          x.coord ∉ u.unlockedKeys) ∧
    (∀ (u : UnlockSystem) (t : HexTile) (k : CubeCoord),
      k ∈ (u.unlockAdjacentTiles g t).1.unlockedKeys ↔
        k ∈ u.unlockedKeys ∨
          ∃ x ∈ g.getAllNeighbors t.coord, x.isTraversable = true ∧ x.coord = k) ∧
    (∀ (u : UnlockSystem) (ts : List HexTile) (k : CubeCoord), k ∈ u.unlockedKeys →
      k ∈ (ts.foldl (fun u' t => (u'.unlockAdjacentTiles g t).1) u).unlockedKeys) ∧
    (∀ (u : UnlockSystem) (t : HexTile),
      (u.unlockAdjacentTiles g t).1.unlockAdjacentTiles g t =
        ((u.unlockAdjacentTiles g t).1, [])) ∧
    (∀ (startTile : HexTile) (k : CubeCoord),
      k ∈ (UnlockSystem.create g startTile).unlockedKeys ↔
        k = startTile.coord ∨
          ∃ x ∈ g.getAllNeighbors startTile.coord, x.isTraversable = true ∧
            x.coord = k) ∧
    (∀ (s : PlayerSessionState) (op : SessionOp),
      (applySessionOp g s op).unlockSystem = s.unlockSystem ∨
        ∃ tile, (applySessionOp g s op).unlockSystem =
          (s.unlockSystem.unlockAdjacentTiles g tile).1) := by
  have hdelta : ∀ (u : UnlockSystem) (t x : HexTile),
      x ∈ (u.unlockAdjacentTiles g t).2 ↔
        x ∈ g.getAllNeighbors t.coord ∧ x.isTraversable = true ∧
          x.coord ∉ u.unlockedKeys := by
    intro u t x
    have h := unlockFold_newly_mem (g.getAllNeighbors t.coord) u []
      (allNeighbors_coords_nodup g t.coord) x
    simpa [UnlockSystem.unlockAdjacentTiles] using h
  have hkeys : ∀ (u : UnlockSystem) (t : HexTile) (k : CubeCoord),
      k ∈ (u.unlockAdjacentTiles g t).1.unlockedKeys ↔
        k ∈ u.unlockedKeys ∨
          ∃ x ∈ g.getAllNeighbors t.coord, x.isTraversable = true ∧ x.coord = k := by
    intro u t k
    exact unlockFold_keys_mem (g.getAllNeighbors t.coord) u [] k
  have hseq : ∀ (ts : List HexTile) (u : UnlockSystem) (k : CubeCoord), k ∈ u.unlockedKeys →
      k ∈ (ts.foldl (fun u' t => (u'.unlockAdjacentTiles g t).1) u).unlockedKeys := by
    intro ts
    induction ts with
    | nil => exact fun u k hk => hk
    | cons t ts ih =>
      intro u k hk
      rw [List.foldl_cons]
      exact ih _ k ((hkeys u t k).2 (Or.inl hk))
  have hsecond : ∀ (u : UnlockSystem) (t : HexTile),
      (u.unlockAdjacentTiles g t).1.unlockAdjacentTiles g t =
        ((u.unlockAdjacentTiles g t).1, []) := by
    intro u t
    apply unlockFold_fixed
    intro x hx htr
    exact (hkeys u t x.coord).2 (Or.inr ⟨x, hx, htr, rfl⟩)
  refine ⟨hdelta, hkeys, fun u ts k hk => hseq ts u k hk, hsecond, ?_, ?_⟩
  · intro startTile k
    have h := hkeys ⟨[startTile.coord]⟩ startTile k
    have hcreate : (UnlockSystem.create g startTile).unlockedKeys =
        ((⟨[startTile.coord]⟩ : UnlockSystem).unlockAdjacentTiles g startTile).1.unlockedKeys := by
      rfl
    rw [hcreate, h]
    simp
  · intro s op
    cases op with
    | handleMove col row =>
      left
      show (handleMove g s col row).1.unlockSystem = s.unlockSystem
      unfold handleMove
      rcases g.getTile (offsetToCube col row) with _ | tile
      · rfl
      · dsimp only
        by_cases htr : tile.isTraversable = false
        · rw [if_pos htr]
        · rw [if_neg htr]
    | battleCycle result =>
      have h := runBattleCycle_unlock g result s
      cases result with
      | victory =>
        exact Or.inr ⟨_, h⟩
      | defeat => exact Or.inl h
    | logEntry text ty => exact Or.inl rfl
    | requestState => exact Or.inl rfl

/-! ### Persistence snapshot (GameStateStore.ts / PlayerSession save-restore) -/

structure PlayerSaveData where
  username : String
  battleCount : Nat
  combatLog : List CombatLogEntry
  unlockedKeys : List CubeCoord
  position : Int × Int
  target : Option (Int × Int)
  movementQueue : List (Int × Int)
deriving DecidableEq

/-- JavaScript `array.slice(-k)`: the last k elements (all of them when the
array is shorter). -/
def jsSliceLast {α : Type} (l : List α) (k : Nat) : List α :=
  l.drop (l.length - k)

/-- PlayerSession.toSaveData. -/
def toSaveData (s : PlayerSessionState) : PlayerSaveData :=
  { username := s.username
    battleCount := s.battleCount
    combatLog := jsSliceLast s.combatLog MAX_SAVE_LOG_ENTRIES
    unlockedKeys := s.unlockSystem.getUnlockedKeys
    position := cubeToOffset s.party.currentTile.coord
    target := s.party.targetTile.map (fun t => cubeToOffset t.coord)
    movementQueue := s.party.movementQueue.map (fun t => cubeToOffset t.coord) }

/-- JavaScript `Set` insertion: append unless present. -/
def setAdd (l : List CubeCoord) (k : CubeCoord) : List CubeCoord :=
  if k ∈ l then l else l ++ [k]

/-- Modelled from the spec: `UnlockSystem.fromKeys(grid, keys)` — referenced
by PlayerSession.fromSaveData but not among the source files — reconstructs
the tracker from a flat list of previously-unlocked keys without re-deriving
from the grid (§4.3): the keys are inserted in order into the
duplicate-dropping key set. -/
def UnlockSystem.fromKeys (keys : List CubeCoord) : UnlockSystem :=
  ⟨keys.foldl setAdd []⟩

structure BattleTimerModel where
  state : BattleTimerState
  visual : BattleVisual
deriving DecidableEq

/-- Modelled from the spec: a freshly constructed ServerBattleTimer starts the
loop at the beginning of a battle phase (§4.6: a restored session "always
starts the Battle Loop fresh (not mid-phase)"): state 'battle', visual
'fighting'. -/
def freshBattleTimer : BattleTimerModel :=
  ⟨.battle, .fighting⟩

def backOnlineEntry : CombatLogEntry :=
  ⟨"Server back online — resuming!", .battle⟩

/-- PlayerSession.fromSaveData: resolve the position tile (a missing tile
aborts this identity's restoration — the source throws and the caller skips
it), resolve the target and the movement queue dropping unresolvable tiles,
rebuild the field state, append the back-online entry, and start a fresh
battle timer. -/
def fromSaveData (g : HexGrid) (data : PlayerSaveData) :
    Option (PlayerSessionState × BattleTimerModel) :=
  match g.getTile (offsetToCube data.position.1 data.position.2) with
  | Option.none => none
  | some currentTile =>
    let targetTile : Option HexTile :=
      match data.target with
      | some tc => g.getTile (offsetToCube tc.1 tc.2)
      | Option.none => none
    let movementQueue :=
      data.movementQueue.filterMap (fun pr => g.getTile (offsetToCube pr.1 pr.2))
    let s0 : PlayerSessionState :=
      { username := data.username
        party := ServerParty.restore currentTile targetTile movementQueue
        unlockSystem := UnlockSystem.fromKeys data.unlockedKeys
        combatLog := jsSliceLast data.combatLog MAX_LOG_ENTRIES
        battleCount := data.battleCount }
    some (addLogEntry s0 "Server back online — resuming!" .battle, freshBattleTimer)

theorem mem_foldl_setAdd :
    ∀ (keys acc : List CubeCoord) (k : CubeCoord),
      k ∈ keys.foldl setAdd acc ↔ k ∈ acc ∨ k ∈ keys := by
  intro keys
  induction keys with
  | nil => simp
  | cons key rest ih =>
    intro acc k
    rw [List.foldl_cons, ih]
    unfold setAdd
    by_cases hk : key ∈ acc
    · rw [if_pos hk]
      constructor
      · rintro (h | h)
        · exact Or.inl h
        · exact Or.inr (List.mem_cons_of_mem key h)
      · rintro (h | h)
        · exact Or.inl h
        · rcases List.mem_cons.1 h with rfl | h'
          · exact Or.inl hk
          · exact Or.inr h'
    · rw [if_neg hk]
      constructor
      · rintro (h | h)
        · rcases List.mem_append.1 h with h' | h'
          · exact Or.inl h'
          · rw [List.mem_singleton] at h'
            exact Or.inr (h' ▸ List.mem_cons_self key rest)
        · exact Or.inr (List.mem_cons_of_mem key h)
      · rintro (h | h)
        · exact Or.inl (List.mem_append_left _ h)
        · rcases List.mem_cons.1 h with rfl | h'
          · exact Or.inl (List.mem_append_right _ (List.mem_singleton.2 rfl))
          · exact Or.inr h'

theorem jsSliceLast_of_le {α : Type} {l : List α} {k : Nat} (h : l.length ≤ k) :
    jsSliceLast l k = l := by
  unfold jsSliceLast
  have : l.length - k = 0 := by omega
  rw [this, List.drop_zero]

theorem filterMap_offset_roundtrip (g : HexGrid) :
    ∀ l : List HexTile,
      (∀ t ∈ l, t.coord.q + t.coord.r + t.coord.s = 0 ∧ g.getTile t.coord = some t) →
      ((l.map (fun t => cubeToOffset t.coord)).filterMap
        (fun pr => g.getTile (offsetToCube pr.1 pr.2))) = l := by
  intro l
  induction l with
  | nil => intro _; rfl
  | cons t rest ih =>
    intro h
    have ht := h t (List.mem_cons_self t rest)
    have hoc : offsetToCube (cubeToOffset t.coord).1 (cubeToOffset t.coord).2 = t.coord :=
      offsetToCube_cubeToOffset _ ht.1
    rw [List.map_cons, List.filterMap_cons]
    rw [hoc, ht.2]
    rw [ih (fun x hx => h x (List.mem_cons_of_mem t hx))]

/-- C3 counterexample: for a session whose combat log already holds the
100-entry live cap, restoring the saved snapshot does not reproduce the log
with only the back-online entry appended — the oldest entry is evicted. -/
def exTile0 : HexTile := ⟨⟨0, 0, 0⟩, TileType.plains⟩

def exGrid1 : HexGrid := ⟨[exTile0], by decide⟩

def exSessionFull : PlayerSessionState :=
  { username := "p"
    party := ServerParty.restore exTile0 none []
    unlockSystem := ⟨[⟨0, 0, 0⟩]⟩
    combatLog := List.replicate 100 ⟨"x", CombatLogType.battle⟩
    battleCount := 5 }

/-- C3 is false as stated: at the 100-entry log cap the round trip drops the
oldest entry besides appending the back-online entry. -/
theorem C3_log_cap_counterexample :
    (fromSaveData exGrid1 (toSaveData exSessionFull)).map (fun pr => pr.1.combatLog) ≠
      some (exSessionFull.combatLog ++ [backOnlineEntry]) := by
  intro h
  have hlen := congrArg (Option.map List.length) h
  simp only [Option.map_map] at hlen
  have : (100 : Nat) = 101 := by
    have h1 : (fromSaveData exGrid1 (toSaveData exSessionFull)).map
        (fun pr => pr.1.combatLog.length) = some 100 := by decide
    have h2 : (some (exSessionFull.combatLog ++ [backOnlineEntry])).map List.length =
        some 101 := by decide
    rw [h2] at hlen
    have h3 : (fromSaveData exGrid1 (toSaveData exSessionFull)).map
        (fun pr => pr.1.combatLog.length) = some 101 := by
      rw [← hlen]
      rfl
    rw [h1] at h3
    exact Option.some.inj h3
  cases this

/-- C3 (amended): building a save snapshot with toSaveData and restoring a
fresh session from it with fromSaveData reproduces the identical position,
target, movement queue, unlocked-tile key set, and battle counter, and
reproduces the combat log exactly except for the appended synthetic "back
online" entry — save that when the log already holds the 100-entry live cap,
appending that entry also evicts the oldest entry; the restored session's
Battle Loop always starts fresh in the battle phase, never mid-phase. -/
theorem C3_save_roundtrip (g : HexGrid) (s : PlayerSessionState)
    (hsum : s.party.currentTile.coord.q + s.party.currentTile.coord.r +
      s.party.currentTile.coord.s = 0)
    (hcur : g.getTile s.party.currentTile.coord = some s.party.currentTile)
    (htar : ∀ t, s.party.targetTile = some t →
      t.coord.q + t.coord.r + t.coord.s = 0 ∧ g.getTile t.coord = some t)
    (hq : ∀ t ∈ s.party.movementQueue,
      t.coord.q + t.coord.r + t.coord.s = 0 ∧ g.getTile t.coord = some t)
    (hlog : s.combatLog.length ≤ MAX_LOG_ENTRIES) :
    ∃ s' timer, fromSaveData g (toSaveData s) = some (s', timer) ∧
      s'.party.currentTile = s.party.currentTile ∧
      s'.party.targetTile = s.party.targetTile ∧
      s'.party.movementQueue = s.party.movementQueue ∧
      (∀ k, k ∈ s'.unlockSystem.unlockedKeys ↔ k ∈ s.unlockSystem.unlockedKeys) ∧
      s'.battleCount = s.battleCount ∧
      s'.combatLog = (if s.combatLog.length = MAX_LOG_ENTRIES
        then s.combatLog.drop 1 ++ [backOnlineEntry]
        else s.combatLog ++ [backOnlineEntry]) ∧
      timer = freshBattleTimer ∧ timer.state = BattleTimerState.battle := by
  have hoc : offsetToCube (cubeToOffset s.party.currentTile.coord).1
      (cubeToOffset s.party.currentTile.coord).2 = s.party.currentTile.coord :=
    offsetToCube_cubeToOffset _ hsum
  have hqueueEq : ((s.party.movementQueue.map (fun t => cubeToOffset t.coord)).filterMap
      (fun pr => g.getTile (offsetToCube pr.1 pr.2))) = s.party.movementQueue :=
    filterMap_offset_roundtrip g s.party.movementQueue hq
  have hlogEq : jsSliceLast (jsSliceLast s.combatLog MAX_SAVE_LOG_ENTRIES)
      MAX_LOG_ENTRIES = s.combatLog := by
    rw [jsSliceLast_of_le (le_trans hlog (by decide))]
    exact jsSliceLast_of_le hlog
  have hmain : fromSaveData g (toSaveData s) =
      some (addLogEntry
        ⟨s.username,
         ServerParty.restore s.party.currentTile s.party.targetTile s.party.movementQueue,
         UnlockSystem.fromKeys s.unlockSystem.getUnlockedKeys,
         s.combatLog, s.battleCount⟩
        "Server back online — resuming!" CombatLogType.battle, freshBattleTimer) := by
    rcases ht : s.party.targetTile with _ | t
    · simp only [fromSaveData, toSaveData, ht, Option.map_none']
      rw [hoc, hcur]
      dsimp only
      rw [hqueueEq, hlogEq]
    · obtain ⟨ht0, ht1⟩ := htar t ht
      simp only [fromSaveData, toSaveData, ht, Option.map_some']
      rw [hoc, hcur]
      dsimp only
      rw [offsetToCube_cubeToOffset _ ht0, ht1, hqueueEq, hlogEq]
  refine ⟨_, _, hmain, rfl, rfl, rfl, ?_, rfl, ?_, rfl, rfl⟩
  · intro k
    show k ∈ List.foldl setAdd [] s.unlockSystem.getUnlockedKeys ↔
      k ∈ s.unlockSystem.unlockedKeys
    rw [mem_foldl_setAdd]
    simp [UnlockSystem.getUnlockedKeys]
  · show (if MAX_LOG_ENTRIES < (s.combatLog ++ [backOnlineEntry]).length
        then (s.combatLog ++ [backOnlineEntry]).drop 1
        else s.combatLog ++ [backOnlineEntry]) = _
    have hl100 : s.combatLog.length ≤ 100 := hlog
    by_cases hc : s.combatLog.length = MAX_LOG_ENTRIES
    · have hc' : s.combatLog.length = 100 := hc
      have hgt : MAX_LOG_ENTRIES < (s.combatLog ++ [backOnlineEntry]).length := by
        show 100 < _
        rw [List.length_append, List.length_singleton]
        omega
      rw [if_pos hc, if_pos hgt,
        List.drop_append_of_le_length (by omega)]
    · have hc' : ¬(s.combatLog.length = 100) := hc
      have hgt : ¬(MAX_LOG_ENTRIES < (s.combatLog ++ [backOnlineEntry]).length) := by
        show ¬(100 < _)
        rw [List.length_append, List.length_singleton]
        omega
      rw [if_neg hc, if_neg hgt]

/-- C3 witness: the amended round trip at a concrete one-tile grid and
session. -/
theorem C3_save_roundtrip_witness :
    ∃ s' timer, fromSaveData exGrid1 (toSaveData
        { username := "p", party := ServerParty.restore exTile0 none [],
          unlockSystem := ⟨[⟨0, 0, 0⟩]⟩, combatLog := [], battleCount := 5 }) =
        some (s', timer) ∧
      s'.party.currentTile = exTile0 ∧
      s'.party.targetTile = none ∧
      s'.party.movementQueue = [] ∧
      (∀ k, k ∈ s'.unlockSystem.unlockedKeys ↔
        k ∈ ([⟨0, 0, 0⟩] : List CubeCoord)) ∧
      s'.battleCount = 5 ∧
      s'.combatLog = [backOnlineEntry] ∧
      timer = freshBattleTimer ∧ timer.state = BattleTimerState.battle := by
  have h := C3_save_roundtrip exGrid1
    { username := "p", party := ServerParty.restore exTile0 none [],
      unlockSystem := ⟨[⟨0, 0, 0⟩]⟩, combatLog := [], battleCount := 5 }
    (by decide) (by decide)
    (fun t ht => by simp [ServerParty.restore] at ht)
    (fun t ht => by simp [ServerParty.restore] at ht)
    (by decide)
  simpa using h

/-! ### Notification ordering within one battle cycle (C4)

The observable events of one identity's cycle: ServerBattleTimer.setState
fires onStateChange (which PlayerSession turns into a broadcast) only on an
actual state change; PlayerSession's onBattleStart / onBattleEnd callbacks
add combat-log entries; onBattleEnd finishes with an explicit broadcast. The
timer revision in the repository never invokes the registered onMove
callback, so no move-type log entry occurs in a cycle's trace. -/

inductive CycleEvent where
  | stateChange (st : BattleTimerState)
  | logAdded (e : CombatLogEntry)
  | broadcast
deriving DecidableEq

/-- ServerBattleTimer.setState: notify only when the state actually changes. -/
def setStateEvents (cur new : BattleTimerState) : List CycleEvent :=
  if cur = new then [] else [CycleEvent.stateChange new]

/-- The notifications of ServerBattleTimer.triggerBattle: the conditional
state notification, then onBattleStart's battle-begins log entry (the counter
was just incremented). -/
def battleStartEvents (st0 : BattleTimerState) (s : PlayerSessionState) :
    List CycleEvent :=
  setStateEvents st0 BattleTimerState.battle ++
    [CycleEvent.logAdded ⟨"Battle #" ++ toString (s.battleCount + 1) ++ " begins!",
      CombatLogType.battle⟩]

/-- The session as it stands when onBattleEnd runs: after exitBattle and the
optional in-result-window move of showBattleResult. -/
def resultSession (result : BattleResult) (s1 : PlayerSessionState) :
    PlayerSessionState :=
  let party1 := s1.party.exitBattle
  let canMove := party1.hasDestination &&
    (decide (result = BattleResult.victory) ||
      canMoveToNextTile { s1 with party := party1 })
  let party2 := if canMove = true then (party1.moveToNextTile).1 else party1
  { s1 with party := party2 }

/-- The notifications of PlayerSession's onBattleEnd callback: the outcome
log entry, on victory the optional newly-unlocked log entry, then the
explicit broadcast. -/
def battleEndEvents (g : HexGrid) (result : BattleResult) (s2 : PlayerSessionState) :
    List CycleEvent :=
  match result with
  | .victory =>
    let s3 := addLogEntry s2 "Victory!" .victory
    let res := s3.unlockSystem.unlockAdjacentTiles g s3.party.currentTile
    CycleEvent.logAdded ⟨"Victory!", CombatLogType.victory⟩ ::
      ((if 0 < res.2.length then
          [CycleEvent.logAdded ⟨toString res.2.length ++ " new tile" ++
            (if 1 < res.2.length then "s" else "") ++ " unlocked!",
            CombatLogType.unlock⟩]
        else []) ++ [CycleEvent.broadcast])
  | .defeat =>
    [CycleEvent.logAdded ⟨"Defeat...", CombatLogType.defeat⟩, CycleEvent.broadcast]

/-- The notifications of ServerBattleTimer.showBattleResult: the state
notification for the switch to 'result' (always fired: the state was
'battle'), then onBattleEnd's notifications on the post-move session. -/
def battleResultEvents (g : HexGrid) (result : BattleResult)
    (s1 : PlayerSessionState) : List CycleEvent :=
  setStateEvents BattleTimerState.battle BattleTimerState.result ++
    battleEndEvents g result (resultSession result s1)

/-- The full notification trace of one battle cycle starting from timer
state st0. -/
def battleCycleEvents (g : HexGrid) (st0 : BattleTimerState)
    (result : BattleResult) (s : PlayerSessionState) : List CycleEvent :=
  battleStartEvents st0 s ++ battleResultEvents g result (triggerBattleStep s)

theorem battleResultEvents_cons (g : HexGrid) (result : BattleResult)
    (s1 : PlayerSessionState) :
    battleResultEvents g result s1 =
      CycleEvent.stateChange BattleTimerState.result ::
        battleEndEvents g result (resultSession result s1) := rfl

theorem mem_battleStartEvents (st0 : BattleTimerState) (s : PlayerSessionState) :
    ∀ e ∈ battleStartEvents st0 s,
      e = CycleEvent.stateChange BattleTimerState.battle ∨
        ∃ le, e = CycleEvent.logAdded le ∧ le.type = CombatLogType.battle := by
  intro e he
  unfold battleStartEvents setStateEvents at he
  split at he
  · simp only [List.nil_append, List.mem_singleton] at he
    exact Or.inr ⟨_, he, rfl⟩
  · simp only [List.cons_append, List.nil_append, List.mem_cons,
      List.mem_singleton, List.not_mem_nil, or_false] at he
    rcases he with rfl | rfl
    · exact Or.inl rfl
    · exact Or.inr ⟨_, rfl, rfl⟩

theorem mem_battleEndEvents (g : HexGrid) (result : BattleResult)
    (s2 : PlayerSessionState) :
    ∀ e ∈ battleEndEvents g result s2,
      e = CycleEvent.broadcast ∨
        ∃ le, e = CycleEvent.logAdded le ∧
          (le.type = CombatLogType.victory ∨ le.type = CombatLogType.defeat ∨
            le.type = CombatLogType.unlock) := by
  intro e he
  rcases result with _ | _
  · simp only [battleEndEvents, List.mem_cons, List.mem_append,
      List.mem_singleton, List.not_mem_nil, or_false] at he
    rcases he with rfl | he
    · exact Or.inr ⟨_, rfl, Or.inl rfl⟩
    · rcases he with he | rfl
      · split at he
        · simp only [List.mem_singleton] at he
          exact Or.inr ⟨_, he, Or.inr (Or.inr rfl)⟩
        · cases he
      · exact Or.inl rfl
  · simp only [battleEndEvents, List.mem_cons, List.not_mem_nil, or_false] at he
    rcases he with rfl | rfl
    · exact Or.inr ⟨_, rfl, Or.inr (Or.inl rfl)⟩
    · exact Or.inl rfl

/-- C4: within one battle cycle of one identity's session, the trace of
notifications splits at the battle-ended state notification: everything
before it is a battle-started notification (the state change to 'battle' or
the battle-begins log entry), everything after it is the outcome or
newly-unlocked log entry or the cycle-end broadcast; in particular the
battle-started notifications precede the battle-ended notification, which
precedes all unlocked notifications of the cycle, and no moved notification
(move-type log entry) occurs at all in this timer revision. -/
theorem C4_notification_order (g : HexGrid) (st0 : BattleTimerState)
    (result : BattleResult) (s : PlayerSessionState) :
    ∃ pre post,
      battleCycleEvents g st0 result s =
        pre ++ CycleEvent.stateChange BattleTimerState.result :: post ∧
      (∀ e ∈ pre, e = CycleEvent.stateChange BattleTimerState.battle ∨
        ∃ le, e = CycleEvent.logAdded le ∧ le.type = CombatLogType.battle) ∧
      (∀ e ∈ post, e = CycleEvent.broadcast ∨
        ∃ le, e = CycleEvent.logAdded le ∧
          (le.type = CombatLogType.victory ∨ le.type = CombatLogType.defeat ∨
            le.type = CombatLogType.unlock)) ∧
      (∀ le, CycleEvent.logAdded le ∈ battleCycleEvents g st0 result s →
        le.type ≠ CombatLogType.move) := by
  refine ⟨battleStartEvents st0 s,
    battleEndEvents g result (resultSession result (triggerBattleStep s)),
    ?_, mem_battleStartEvents st0 s, mem_battleEndEvents g result _, ?_⟩
  · rw [battleCycleEvents, battleResultEvents_cons]
  · intro le hle
    rcases List.mem_append.1 hle with h | h
    · rcases mem_battleStartEvents st0 s _ h with h' | ⟨le', h', hty⟩
      · cases h'
      · cases CycleEvent.logAdded.inj h'
        rw [hty]
        intro hcon
        cases hcon
    · rw [battleResultEvents_cons] at h
      rcases List.mem_cons.1 h with h' | h'
      · cases h'
      · rcases mem_battleEndEvents g result _ _ h' with h'' | ⟨le', h'', hty⟩
        · cases h''
        · cases CycleEvent.logAdded.inj h''
          rcases hty with hty | hty | hty <;> rw [hty] <;> intro hcon <;> cases hcon

/-! ### Battle-phase duration draw (C8) -/

/-- Shared constant MIN_BATTLE_DURATION (ms). -/
def MIN_BATTLE_DURATION : ℚ := 2000

/-- Shared constant MAX_BATTLE_DURATION (ms). -/
def MAX_BATTLE_DURATION : ℚ := 10000

/-- Modelled from the spec: on entering the battle phase the timer picks "a
random duration in range" — "duration drawn uniformly from a configured
[min,max] range each cycle" (§4.6); r models the unit-interval uniform sample
of the runtime's random source, mapped affinely onto the configured range. -/
def pickBattleDuration (r : ℚ) : ℚ :=
  MIN_BATTLE_DURATION + r * (MAX_BATTLE_DURATION - MIN_BATTLE_DURATION)

/-- The per-cycle durations: cycle n uses the n-th fresh sample of the
random source. -/
def battleDurations (draws : Nat → ℚ) (cycle : Nat) : ℚ :=
  pickBattleDuration (draws cycle)

/-- C8: with a unit-interval sample, the drawn battle duration always lies in
the configured [MIN_BATTLE_DURATION, MAX_BATTLE_DURATION) range; the draw is
the affine image of the uniform unit sample (so it is uniform on the range),
it is strictly monotone and injective in the sample, and every cycle uses its
own fresh sample. -/
theorem C8_battle_duration (draws : Nat → ℚ) (cycle : Nat)
    (h0 : 0 ≤ draws cycle) (h1 : draws cycle < 1) :
    MIN_BATTLE_DURATION ≤ battleDurations draws cycle ∧
    battleDurations draws cycle < MAX_BATTLE_DURATION ∧
    battleDurations draws cycle =
      MIN_BATTLE_DURATION + draws cycle * (MAX_BATTLE_DURATION - MIN_BATTLE_DURATION) ∧
    (∀ r r' : ℚ, r < r' → pickBattleDuration r < pickBattleDuration r') ∧
    (∀ c c' : Nat, battleDurations draws c = battleDurations draws c' →
      draws c = draws c') := by
  unfold battleDurations pickBattleDuration MIN_BATTLE_DURATION MAX_BATTLE_DURATION
  refine ⟨?_, ?_, rfl, ?_, ?_⟩
  · nlinarith
  · nlinarith
  · intro r r' hrr'
    nlinarith
  · intro c c' h
    nlinarith [h]

/-- C8 witness: the duration drawn from the mid-range sample. -/
theorem C8_battle_duration_witness :
    MIN_BATTLE_DURATION ≤ battleDurations (fun _ => 1/2) 0 ∧
    battleDurations (fun _ => 1/2) 0 < MAX_BATTLE_DURATION ∧
    battleDurations (fun _ => 1/2) 0 =
      MIN_BATTLE_DURATION + (fun _ : Nat => (1 : ℚ)/2) 0 *
        (MAX_BATTLE_DURATION - MIN_BATTLE_DURATION) ∧
    (∀ r r' : ℚ, r < r' → pickBattleDuration r < pickBattleDuration r') ∧
    (∀ c c' : Nat, battleDurations (fun _ => 1/2) c = battleDurations (fun _ => 1/2) c' →
      (fun _ : Nat => (1 : ℚ)/2) c = (fun _ : Nat => (1 : ℚ)/2) c') :=
  C8_battle_duration (fun _ => 1/2) 0 (by norm_num) (by norm_num)

/-! ### Atomic persistence (C9, JsonFileStore atomic variant)

The store's directory is a finite map from file path to file content,
modelled as an association list. JSON encoding/decoding are parameters: the
decoder returns none where JSON.parse would throw (the source catches and
returns null). -/

def fsGet (fs : List (String × String)) (p : String) : Option String :=
  match fs with
  | [] => none
  | e :: rest => if e.1 = p then some e.2 else fsGet rest p

def fsSet (fs : List (String × String)) (p v : String) : List (String × String) :=
  match fs with
  | [] => [(p, v)]
  | e :: rest => if e.1 = p then (p, v) :: rest else e :: fsSet rest p v

def fsRemove (fs : List (String × String)) (p : String) : List (String × String) :=
  fs.filter (fun e => decide (e.1 ≠ p))

/-- JsonFileStore.filePath: data/<username>.json (directory elided). -/
def targetPath (u : String) : String := u ++ ".json"

/-- The temporary path the atomic save writes first. -/
def tmpPath (u : String) : String := targetPath u ++ ".tmp"

/-- The two filesystem effects of JsonFileStore.save: write the full record
to the temporary path, then atomically rename it over the target. A rename
with no temporary file present leaves the directory unchanged. -/
inductive FsStep where
  | writeTmp (u content : String)
  | renameTmp (u : String)
deriving DecidableEq

def applyFsStep (fs : List (String × String)) : FsStep → List (String × String)
  | .writeTmp u c => fsSet fs (tmpPath u) c
  | .renameTmp u =>
    match fsGet fs (tmpPath u) with
    | some v => fsSet (fsRemove fs (tmpPath u)) (targetPath u) v
    | Option.none => fs

/-- JsonFileStore.save (atomic variant): write the serialized record to the
.tmp path, then rename it over the committed file. -/
def saveSteps (enc : PlayerSaveData → String) (d : PlayerSaveData) : List FsStep :=
  [FsStep.writeTmp d.username (enc d), FsStep.renameTmp d.username]

/-- JsonFileStore.load (atomic variant): absent file → null; whitespace-only
content → null; parse failure → null (caught); otherwise the decoded record. -/
def load (dec : String → Option PlayerSaveData) (fs : List (String × String))
    (u : String) : Option PlayerSaveData :=
  match fsGet fs (targetPath u) with
  | Option.none => none
  | some raw => if raw.trim = "" then none else dec raw

theorem fsGet_fsSet_self (fs : List (String × String)) (p v : String) :
    fsGet (fsSet fs p v) p = some v := by
  induction fs with
  | nil => simp [fsSet, fsGet]
  | cons e rest ih =>
    by_cases h : e.1 = p
    · simp [fsSet, fsGet, h]
    · simp [fsSet, fsGet, h, ih]

theorem fsGet_fsSet_ne (fs : List (String × String)) (p q v : String)
    (hne : ¬(p = q)) : fsGet (fsSet fs q v) p = fsGet fs p := by
  have hqp : ¬(q = p) := fun hh => hne hh.symm
  induction fs with
  | nil => simp [fsSet, fsGet, hqp]
  | cons e rest ih =>
    by_cases h : e.1 = q
    · simp [fsSet, fsGet, h, hqp]
    · simp [fsSet, fsGet, h, ih]

/-- A committed .json path never coincides with any identity's .tmp path:
their last characters differ. -/
theorem targetPath_ne_tmpPath (u w : String) : ¬(targetPath u = tmpPath w) := by
  intro h
  have hd := congrArg (fun s : String => s.data.getLast?) h
  simp only [targetPath, tmpPath, String.data_append] at hd
  simp [List.getLast?_append] at hd

/-- C9: every save writes the full record to the temporary path first and
only then renames it over the committed file, so an interrupted save — the
temporary file written with arbitrary (possibly truncated or corrupt)
content, the rename never performed — leaves the previously committed record
untouched and still loading exactly as before; a completed save loads the
new record; and load returns none (instead of throwing) for a committed file
that is whitespace-only or fails to parse. -/
theorem C9_atomic_persistence (enc : PlayerSaveData → String)
    (dec : String → Option PlayerSaveData) (fs : List (String × String))
    (d : PlayerSaveData) (u c : String) :
    (∀ w, load dec (applyFsStep fs (FsStep.writeTmp w c)) u = load dec fs u) ∧
    (dec (enc d) = some d → ¬((enc d).trim = "") →
      load dec ((saveSteps enc d).foldl applyFsStep fs) d.username = some d) ∧
    (∀ raw, fsGet fs (targetPath u) = some raw → raw.trim = "" →
      load dec fs u = none) ∧
    (∀ raw, fsGet fs (targetPath u) = some raw → dec raw = none →
      load dec fs u = none) := by
  refine ⟨?_, ?_, ?_, ?_⟩
  · intro w
    unfold load applyFsStep
    dsimp only
    rw [fsGet_fsSet_ne _ _ _ _ (targetPath_ne_tmpPath u w)]
  · intro hdec htrim
    unfold saveSteps
    rw [List.foldl_cons, List.foldl_cons, List.foldl_nil]
    unfold applyFsStep
    dsimp only
    rw [fsGet_fsSet_self]
    unfold load
    rw [fsGet_fsSet_self]
    dsimp only
    rw [if_neg htrim, hdec]
  · intro raw hget htrim
    unfold load
    rw [hget]
    dsimp only
    rw [if_pos htrim]
  · intro raw hget hdec
    unfold load
    rw [hget]
    dsimp only
    rw [hdec]
    split <;> rfl

/-! ### Connection multiplexing (C7, PlayerManager)

Connections are identified by numeric handles; JS Maps are insertion-ordered
association lists (set keeps the entry's position, delete removes it) and the
per-identity connection Set is an insertion-ordered duplicate-free list.
Session objects are represented by their username registry: login creates the
session if absent and removeConnection never removes it. -/

def assocGet {α β : Type} [DecidableEq α] (l : List (α × β)) (k : α) : Option β :=
  match l with
  | [] => none
  | e :: rest => if e.1 = k then some e.2 else assocGet rest k

def assocSet {α β : Type} [DecidableEq α] (l : List (α × β)) (k : α) (v : β) :
    List (α × β) :=
  match l with
  | [] => [(k, v)]
  | e :: rest => if e.1 = k then (k, v) :: rest else e :: assocSet rest k v

def assocDelete {α β : Type} [DecidableEq α] (l : List (α × β)) (k : α) :
    List (α × β) :=
  l.filter (fun e => decide (e.1 ≠ k))

structure PlayerManagerState where
  sessions : List String
  connections : List (Nat × String)
  playerConnections : List (String × List Nat)
deriving DecidableEq

def pmEmpty : PlayerManagerState := ⟨[], [], []⟩

/-- PlayerManager.login: bind the connection to the username, add it to the
username's connection set (the set is created on first use), create the
session if absent. The previous binding of the connection, if any, is not
removed from its old set. -/
def login (m : PlayerManagerState) (ws : Nat) (username : String) :
    PlayerManagerState :=
  let connections := assocSet m.connections ws username
  let wsSet0 := (assocGet m.playerConnections username).getD []
  let wsSet := if ws ∈ wsSet0 then wsSet0 else wsSet0 ++ [ws]
  let playerConnections := assocSet m.playerConnections username wsSet
  let sessions :=
    if username ∈ m.sessions then m.sessions else m.sessions ++ [username]
  ⟨sessions, connections, playerConnections⟩

/-- PlayerManager.removeConnection: unbind the connection and drop it from
its identity's set, deleting the set when it empties; the session stays. -/
def removeConnection (m : PlayerManagerState) (ws : Nat) : PlayerManagerState :=
  match assocGet m.connections ws with
  | Option.none => m
  | some username =>
    let connections := assocDelete m.connections ws
    match assocGet m.playerConnections username with
    | Option.none => ⟨m.sessions, connections, m.playerConnections⟩
    | some wsSet =>
      let wsSet2 := wsSet.filter (fun w => decide (w ≠ ws))
      ⟨m.sessions, connections,
        if wsSet2.length = 0 then assocDelete m.playerConnections username
        else assocSet m.playerConnections username wsSet2⟩

/-- PlayerManager.sendStateToPlayer: the connections the serialized snapshot
is sent to — every open member of the identity's connection set, nothing when
the set is absent or empty or the session does not exist. openP models
ws.readyState being OPEN. -/
def sendStateRecipients (m : PlayerManagerState) (openP : Nat → Bool)
    (username : String) : List Nat :=
  match assocGet m.playerConnections username with
  | Option.none => []
  | some wsSet =>
    if wsSet.length = 0 then []
    else if username ∈ m.sessions then wsSet.filter openP
    else []

inductive ConnEvent where
  | login (ws : Nat) (username : String)
  | disconnect (ws : Nat)
deriving DecidableEq

def applyConnEvent (m : PlayerManagerState) : ConnEvent → PlayerManagerState
  | .login ws u => login m ws u
  | .disconnect ws => removeConnection m ws

def runConnEvents (evs : List ConnEvent) : PlayerManagerState :=
  evs.foldl applyConnEvent pmEmpty

/-- Histories in which no connection logs in again under a different
identity while still bound (the wire protocol permits that; the amended C7
excludes it). -/
def noReloginFrom (m : PlayerManagerState) : List ConnEvent → Bool
  | [] => true
  | ConnEvent.login ws u :: rest =>
    (match assocGet m.connections ws with
     | Option.none => true
     | some u' => decide (u' = u)) &&
      noReloginFrom (login m ws u) rest
  | ConnEvent.disconnect ws :: rest =>
    noReloginFrom (removeConnection m ws) rest

theorem assocGet_assocSet_self {α β : Type} [DecidableEq α]
    (l : List (α × β)) (k : α) (v : β) : assocGet (assocSet l k v) k = some v := by
  induction l with
  | nil => simp [assocSet, assocGet]
  | cons e rest ih =>
    by_cases h : e.1 = k
    · simp [assocSet, assocGet, h]
    · simp [assocSet, assocGet, h, ih]

theorem assocGet_assocSet_ne {α β : Type} [DecidableEq α]
    (l : List (α × β)) (k k' : α) (v : β) (h : ¬(k' = k)) :
    assocGet (assocSet l k v) k' = assocGet l k' := by
  have hkk : ¬(k = k') := fun hh => h hh.symm
  induction l with
  | nil => simp [assocSet, assocGet, hkk]
  | cons e rest ih =>
    by_cases he : e.1 = k
    · simp [assocSet, assocGet, he, hkk]
    · simp [assocSet, assocGet, he, ih]

theorem assocGet_assocDelete_self {α β : Type} [DecidableEq α]
    (l : List (α × β)) (k : α) : assocGet (assocDelete l k) k = none := by
  induction l with
  | nil => rfl
  | cons e rest ih =>
    by_cases h : e.1 = k
    · simpa [assocDelete, List.filter_cons, h] using ih
    · simpa [assocDelete, List.filter_cons, assocGet, h] using ih

theorem assocGet_assocDelete_ne {α β : Type} [DecidableEq α]
    (l : List (α × β)) (k k' : α) (h : ¬(k' = k)) :
    assocGet (assocDelete l k) k' = assocGet l k' := by
  induction l with
  | nil => rfl
  | cons e rest ih =>
    show assocGet (List.filter (fun e => decide (e.1 ≠ k)) (e :: rest)) k' = _
    rw [List.filter_cons]
    by_cases he : e.1 = k
    · rw [if_neg (by simp [he])]
      show assocGet (assocDelete rest k) k' = _
      rw [ih]
      show _ = if e.1 = k' then some e.2 else assocGet rest k'
      rw [if_neg (fun hh => h (hh.symm.trans he))]
    · rw [if_pos (by simp [he])]
      show (if e.1 = k' then some e.2 else assocGet (assocDelete rest k) k') = _
      rw [ih]
      rfl

/-- The PlayerManager consistency invariant: set membership coincides with
the connection's binding, and every existing set is nonempty and backed by a
session. -/
structure PMInv (m : PlayerManagerState) : Prop where
  mem_bound : ∀ u s w, assocGet m.playerConnections u = some s → w ∈ s →
    assocGet m.connections w = some u
  bound_mem : ∀ w u, assocGet m.connections w = some u →
    ∃ s, assocGet m.playerConnections u = some s ∧ w ∈ s
  entry_ok : ∀ u s, assocGet m.playerConnections u = some s →
    s ≠ [] ∧ u ∈ m.sessions

theorem pmEmpty_inv : PMInv pmEmpty := by
  constructor
  · intro u s w h
    simp [pmEmpty, assocGet] at h
  · intro w u h
    simp [pmEmpty, assocGet] at h
  · intro u s h
    simp [pmEmpty, assocGet] at h

theorem login_eq (m : PlayerManagerState) (ws : Nat) (u : String) :
    login m ws u = ⟨if u ∈ m.sessions then m.sessions else m.sessions ++ [u],
      assocSet m.connections ws u,
      assocSet m.playerConnections u
        (if ws ∈ (assocGet m.playerConnections u).getD []
         then (assocGet m.playerConnections u).getD []
         else (assocGet m.playerConnections u).getD [] ++ [ws])⟩ := rfl

theorem pm_inv_login_aux (m : PlayerManagerState) (ws : Nat) (u : String)
    (W : List Nat) (sess : List String) (hinv : PMInv m)
    (hpre : assocGet m.connections ws = none ∨ assocGet m.connections ws = some u)
    (hWmem : ws ∈ W)
    (hWold : ∀ w, w ∈ W → w = ws ∨ assocGet m.connections w = some u)
    (hWfrom : ∀ s w, assocGet m.playerConnections u = some s → w ∈ s → w ∈ W)
    (hsess : ∀ x, x ∈ m.sessions → x ∈ sess) (husess : u ∈ sess) :
    PMInv ⟨sess, assocSet m.connections ws u, assocSet m.playerConnections u W⟩ := by
  constructor
  · intro u' s' w hpc' hw
    by_cases hu : u' = u
    · subst hu
      rw [assocGet_assocSet_self] at hpc'
      cases Option.some.inj hpc'
      by_cases hwws : w = ws
      · subst hwws
        rw [assocGet_assocSet_self]
      · rcases hWold w hw with rfl | hbw
        · exact absurd rfl hwws
        · rw [assocGet_assocSet_ne _ _ _ _ hwws]
          exact hbw
    · rw [assocGet_assocSet_ne _ _ _ _ hu] at hpc'
      have hbw := hinv.mem_bound u' s' w hpc' hw
      have hwws : ¬(w = ws) := by
        intro hh
        subst hh
        rcases hpre with h | h
        · rw [h] at hbw
          cases hbw
        · rw [h] at hbw
          exact hu (Option.some.inj hbw).symm
      rw [assocGet_assocSet_ne _ _ _ _ hwws]
      exact hbw
  · intro w u' hb'
    by_cases hw : w = ws
    · subst hw
      rw [assocGet_assocSet_self] at hb'
      cases Option.some.inj hb'
      exact ⟨W, assocGet_assocSet_self _ _ _, hWmem⟩
    · rw [assocGet_assocSet_ne _ _ _ _ hw] at hb'
      obtain ⟨s, hs, hwm⟩ := hinv.bound_mem w u' hb'
      by_cases hu : u' = u
      · subst hu
        exact ⟨W, assocGet_assocSet_self _ _ _, hWfrom s w hs hwm⟩
      · exact ⟨s, by rw [assocGet_assocSet_ne _ _ _ _ hu]; exact hs, hwm⟩
  · intro u' s' hpc'
    by_cases hu : u' = u
    · subst hu
      rw [assocGet_assocSet_self] at hpc'
      cases Option.some.inj hpc'
      exact ⟨List.ne_nil_of_mem hWmem, husess⟩
    · rw [assocGet_assocSet_ne _ _ _ _ hu] at hpc'
      obtain ⟨h1, h2⟩ := hinv.entry_ok u' s' hpc'
      exact ⟨h1, hsess u' h2⟩

theorem login_preserves {m : PlayerManagerState} (hinv : PMInv m) (ws : Nat)
    (u : String)
    (hpre : assocGet m.connections ws = none ∨ assocGet m.connections ws = some u) :
    PMInv (login m ws u) := by
  have hgd : ∀ w, w ∈ (assocGet m.playerConnections u).getD [] →
      assocGet m.connections w = some u := by
    intro w hw
    rcases hpc : assocGet m.playerConnections u with _ | s
    · rw [hpc] at hw
      exact absurd hw (List.not_mem_nil w)
    · rw [hpc] at hw
      exact hinv.mem_bound u s w hpc hw
  rw [login_eq]
  refine pm_inv_login_aux m ws u _ _ hinv hpre ?_ ?_ ?_ ?_ ?_
  · by_cases hc : ws ∈ (assocGet m.playerConnections u).getD []
    · rw [if_pos hc]
      exact hc
    · rw [if_neg hc]
      exact List.mem_append_right _ (List.mem_singleton.2 rfl)
  · intro w hw
    by_cases hc : ws ∈ (assocGet m.playerConnections u).getD []
    · rw [if_pos hc] at hw
      exact Or.inr (hgd w hw)
    · rw [if_neg hc] at hw
      rcases List.mem_append.1 hw with h | h
      · exact Or.inr (hgd w h)
      · exact Or.inl (List.mem_singleton.1 h)
  · intro s w hs hw
    rw [hs]
    simp only [Option.getD_some]
    by_cases hc : ws ∈ s
    · rw [if_pos hc]
      exact hw
    · rw [if_neg hc]
      exact List.mem_append_left _ hw
  · intro x hx
    by_cases hus : u ∈ m.sessions
    · rw [if_pos hus]
      exact hx
    · rw [if_neg hus]
      exact List.mem_append_left _ hx
  · by_cases hus : u ∈ m.sessions
    · rw [if_pos hus]
      exact hus
    · rw [if_neg hus]
      exact List.mem_append_right _ (List.mem_singleton.2 rfl)

theorem removeConnection_eq_none {m : PlayerManagerState} {ws : Nat}
    (hb : assocGet m.connections ws = none) : removeConnection m ws = m := by
  unfold removeConnection
  rw [hb]

theorem removeConnection_eq_some {m : PlayerManagerState} {ws : Nat} {u : String}
    {s : List Nat} (hb : assocGet m.connections ws = some u)
    (hpc : assocGet m.playerConnections u = some s) :
    removeConnection m ws = ⟨m.sessions, assocDelete m.connections ws,
      if (s.filter (fun w => decide (w ≠ ws))).length = 0
      then assocDelete m.playerConnections u
      else assocSet m.playerConnections u (s.filter (fun w => decide (w ≠ ws)))⟩ := by
  unfold removeConnection
  rw [hb]
  dsimp only
  rw [hpc]

theorem remove_preserves {m : PlayerManagerState} (hinv : PMInv m) (ws : Nat) :
    PMInv (removeConnection m ws) := by
  rcases hb : assocGet m.connections ws with _ | u
  · rw [removeConnection_eq_none hb]
    exact hinv
  · obtain ⟨s, hpc, hwss⟩ := hinv.bound_mem ws u hb
    rw [removeConnection_eq_some hb hpc]
    have hs2 : ∀ w, w ∈ s.filter (fun w => decide (w ≠ ws)) ↔ (w ∈ s ∧ ¬(w = ws)) := by
      intro w
      rw [List.mem_filter]
      simp
    constructor
    · intro u' s' w hpc' hw
      by_cases hlen : (s.filter (fun w => decide (w ≠ ws))).length = 0
      · rw [if_pos hlen] at hpc'
        by_cases hu : u' = u
        · subst hu
          rw [assocGet_assocDelete_self] at hpc'
          cases hpc'
        · rw [assocGet_assocDelete_ne _ _ _ hu] at hpc'
          have hbw := hinv.mem_bound u' s' w hpc' hw
          have hwws : ¬(w = ws) := by
            intro hh
            subst hh
            rw [hb] at hbw
            exact hu (Option.some.inj hbw).symm
          rw [assocGet_assocDelete_ne _ _ _ hwws]
          exact hbw
      · rw [if_neg hlen] at hpc'
        by_cases hu : u' = u
        · subst hu
          rw [assocGet_assocSet_self] at hpc'
          cases Option.some.inj hpc'
          obtain ⟨hws', hwws⟩ := (hs2 w).1 hw
          have hbw := hinv.mem_bound u' s w hpc hws'
          rw [assocGet_assocDelete_ne _ _ _ hwws]
          exact hbw
        · rw [assocGet_assocSet_ne _ _ _ _ hu] at hpc'
          have hbw := hinv.mem_bound u' s' w hpc' hw
          have hwws : ¬(w = ws) := by
            intro hh
            subst hh
            rw [hb] at hbw
            exact hu (Option.some.inj hbw).symm
          rw [assocGet_assocDelete_ne _ _ _ hwws]
          exact hbw
    · intro w u' hb'
      have hwws : ¬(w = ws) := by
        intro hh
        subst hh
        rw [assocGet_assocDelete_self] at hb'
        cases hb'
      rw [assocGet_assocDelete_ne _ _ _ hwws] at hb'
      obtain ⟨t, ht, hwt⟩ := hinv.bound_mem w u' hb'
      by_cases hu : u' = u
      · subst hu
        rw [hpc] at ht
        cases Option.some.inj ht
        have hmem2 : w ∈ s.filter (fun w => decide (w ≠ ws)) :=
          (hs2 w).2 ⟨hwt, hwws⟩
        have hlen : ¬((s.filter (fun w => decide (w ≠ ws))).length = 0) := by
          intro hh
          rw [List.length_eq_zero] at hh
          rw [hh] at hmem2
          exact absurd hmem2 (List.not_mem_nil w)
        rw [if_neg hlen]
        exact ⟨_, assocGet_assocSet_self _ _ _, hmem2⟩
      · by_cases hlen : (s.filter (fun w => decide (w ≠ ws))).length = 0
        · rw [if_pos hlen]
          exact ⟨t, by rw [assocGet_assocDelete_ne _ _ _ hu]; exact ht, hwt⟩
        · rw [if_neg hlen]
          exact ⟨t, by rw [assocGet_assocSet_ne _ _ _ _ hu]; exact ht, hwt⟩
    · intro u' s' hpc'
      by_cases hlen : (s.filter (fun w => decide (w ≠ ws))).length = 0
      · rw [if_pos hlen] at hpc'
        by_cases hu : u' = u
        · subst hu
          rw [assocGet_assocDelete_self] at hpc'
          cases hpc'
        · rw [assocGet_assocDelete_ne _ _ _ hu] at hpc'
          exact hinv.entry_ok u' s' hpc'
      · rw [if_neg hlen] at hpc'
        by_cases hu : u' = u
        · subst hu
          rw [assocGet_assocSet_self] at hpc'
          cases Option.some.inj hpc'
          refine ⟨?_, (hinv.entry_ok u' s hpc).2⟩
          intro hh
          rw [hh] at hlen
          exact hlen rfl
        · rw [assocGet_assocSet_ne _ _ _ _ hu] at hpc'
          exact hinv.entry_ok u' s' hpc'

theorem pmEmpty_noRelogin_inv : ∀ (evs : List ConnEvent) (m : PlayerManagerState),
    noReloginFrom m evs = true → PMInv m →
    PMInv (evs.foldl applyConnEvent m) := by
  intro evs
  induction evs with
  | nil =>
    intro m _ h
    exact h
  | cons e rest ih =>
    intro m hnr hinv
    rw [List.foldl_cons]
    cases e with
    | login ws u =>
      rw [noReloginFrom, Bool.and_eq_true] at hnr
      obtain ⟨h1, h2⟩ := hnr
      have hpre : assocGet m.connections ws = none ∨
          assocGet m.connections ws = some u := by
        rcases hbw : assocGet m.connections ws with _ | u'
        · exact Or.inl rfl
        · rw [hbw] at h1
          dsimp only at h1
          exact Or.inr (by rw [of_decide_eq_true h1])
      exact ih (login m ws u) h2 (login_preserves hinv ws u hpre)
    | disconnect ws =>
      rw [noReloginFrom] at hnr
      exact ih (removeConnection m ws) hnr (remove_preserves hinv ws)

theorem recipients_iff {m : PlayerManagerState} (hinv : PMInv m)
    (openP : Nat → Bool) (u : String) (w : Nat) :
    w ∈ sendStateRecipients m openP u ↔
      (openP w = true ∧ assocGet m.connections w = some u) := by
  unfold sendStateRecipients
  rcases hpc : assocGet m.playerConnections u with _ | s
  · dsimp only
    constructor
    · intro h
      exact absurd h (List.not_mem_nil w)
    · rintro ⟨_, hb⟩
      obtain ⟨s, hs, _⟩ := hinv.bound_mem w u hb
      rw [hpc] at hs
      cases hs
  · dsimp only
    obtain ⟨hne, husess⟩ := hinv.entry_ok u s hpc
    have hlen : ¬(s.length = 0) := by
      intro hh
      exact hne (List.length_eq_zero.1 hh)
    rw [if_neg hlen, if_pos husess, List.mem_filter]
    constructor
    · rintro ⟨hws', hop⟩
      exact ⟨hop, hinv.mem_bound u s w hpc hws'⟩
    · rintro ⟨hop, hb⟩
      obtain ⟨t, ht, hwt⟩ := hinv.bound_mem w u hb
      rw [hpc] at ht
      cases Option.some.inj ht
      exact ⟨hwt, hop⟩

theorem removeConnection_sessions (m : PlayerManagerState) (ws : Nat) :
    (removeConnection m ws).sessions = m.sessions := by
  rcases hb : assocGet m.connections ws with _ | u
  · rw [removeConnection_eq_none hb]
  · rcases hpc : assocGet m.playerConnections u with _ | s
    · unfold removeConnection
      rw [hb]
      dsimp only
      rw [hpc]
    · rw [removeConnection_eq_some hb hpc]

theorem removeConnection_binding_ne (m : PlayerManagerState) (ws w : Nat)
    (h : ¬(w = ws)) :
    assocGet (removeConnection m ws).connections w = assocGet m.connections w := by
  rcases hb : assocGet m.connections ws with _ | u
  · rw [removeConnection_eq_none hb]
  · rcases hpc : assocGet m.playerConnections u with _ | s
    · unfold removeConnection
      rw [hb]
      dsimp only
      rw [hpc]
      dsimp only
      exact assocGet_assocDelete_ne _ _ _ h
    · rw [removeConnection_eq_some hb hpc]
      exact assocGet_assocDelete_ne _ _ _ h

/-- C7 is false as stated: the wire protocol accepts a second login on an
already-bound connection, and PlayerManager.login does not remove the
connection from its previous identity's set; after logging in connection 0 as
"alice" and then as "bob", the connection is bound to "bob" yet still
receives "alice"'s broadcasts. -/
theorem C7_stale_binding_counterexample :
    assocGet (runConnEvents
      [ConnEvent.login 0 "alice", ConnEvent.login 0 "bob"]).connections 0 =
        some "bob" ∧
    0 ∈ sendStateRecipients (runConnEvents
      [ConnEvent.login 0 "alice", ConnEvent.login 0 "bob"]) (fun _ => true)
      "alice" := by decide

/-- C7 (amended): over any connection history in which no connection logs in
again under a different identity while still bound, broadcasting an
identity's state reaches exactly the open connections currently bound to that
identity (so two connections of the same identity both receive every
broadcast and no foreign connection receives any); a connection sits in an
identity's fan-out set iff it is bound to that identity; and removing a
connection never destroys a session and never changes whether any other
connection receives an identity's broadcasts. -/
theorem C7_connection_multiplexing (evs : List ConnEvent) (ws : Nat)
    (openP : Nat → Bool) (hnr : noReloginFrom pmEmpty evs = true) :
    (∀ w u, w ∈ sendStateRecipients (runConnEvents evs) openP u ↔
      (openP w = true ∧ assocGet (runConnEvents evs).connections w = some u)) ∧
    (∀ w u, (∃ s, assocGet (runConnEvents evs).playerConnections u = some s ∧
      w ∈ s) ↔ assocGet (runConnEvents evs).connections w = some u) ∧
    (runConnEvents (evs ++ [ConnEvent.disconnect ws])).sessions =
      (runConnEvents evs).sessions ∧
    (∀ w u, ¬(w = ws) →
      (w ∈ sendStateRecipients (runConnEvents (evs ++ [ConnEvent.disconnect ws]))
          openP u ↔
        w ∈ sendStateRecipients (runConnEvents evs) openP u)) := by
  have hinv : PMInv (runConnEvents evs) :=
    pmEmpty_noRelogin_inv evs pmEmpty hnr pmEmpty_inv
  have hext : runConnEvents (evs ++ [ConnEvent.disconnect ws]) =
      removeConnection (runConnEvents evs) ws := by
    unfold runConnEvents
    rw [List.foldl_append]
    rfl
  have hinv2 : PMInv (removeConnection (runConnEvents evs) ws) :=
    remove_preserves hinv ws
  refine ⟨fun w u => recipients_iff hinv openP u w, ?_, ?_, ?_⟩
  · intro w u
    exact ⟨fun ⟨s, hs, hw⟩ => hinv.mem_bound u s w hs hw, hinv.bound_mem w u⟩
  · rw [hext]
    exact removeConnection_sessions _ _
  · intro w u hw
    rw [hext, recipients_iff hinv2 openP u w, recipients_iff hinv openP u w,
      removeConnection_binding_ne _ _ _ hw]

/-- C7 witness: the amended statement on the concrete history of two
connections logged in under the same identity, one of which then
disconnects. -/
theorem C7_connection_multiplexing_witness :
    noReloginFrom pmEmpty [ConnEvent.login 0 "alice", ConnEvent.login 1 "alice"]
      = true ∧
    ((∀ w u, w ∈ sendStateRecipients (runConnEvents
        [ConnEvent.login 0 "alice", ConnEvent.login 1 "alice"]) (fun _ => true) u ↔
      ((fun _ : Nat => true) w = true ∧ assocGet (runConnEvents
        [ConnEvent.login 0 "alice", ConnEvent.login 1 "alice"]).connections w =
          some u)) ∧
    (∀ w u, (∃ s, assocGet (runConnEvents
        [ConnEvent.login 0 "alice", ConnEvent.login 1 "alice"]).playerConnections u
          = some s ∧ w ∈ s) ↔
      assocGet (runConnEvents
        [ConnEvent.login 0 "alice", ConnEvent.login 1 "alice"]).connections w =
          some u) ∧
    (runConnEvents ([ConnEvent.login 0 "alice", ConnEvent.login 1 "alice"] ++
        [ConnEvent.disconnect 1])).sessions =
      (runConnEvents [ConnEvent.login 0 "alice", ConnEvent.login 1 "alice"]).sessions ∧
    (∀ w u, ¬(w = 1) →
      (w ∈ sendStateRecipients (runConnEvents
          ([ConnEvent.login 0 "alice", ConnEvent.login 1 "alice"] ++
            [ConnEvent.disconnect 1])) (fun _ => true) u ↔
        w ∈ sendStateRecipients (runConnEvents
          [ConnEvent.login 0 "alice", ConnEvent.login 1 "alice"])
          (fun _ => true) u))) :=
  ⟨by decide,
    C7_connection_multiplexing [ConnEvent.login 0 "alice", ConnEvent.login 1 "alice"]
      1 (fun _ => true) (by decide)⟩

end IdleHex
